import Mathlib

/-!
# Verification of `day7.rs` (precedence-graph sequencing and scheduling)

Shallow embedding of `src/examples/aoc-2018-expanded/day7.rs`:

* `Step` identifiers are raw byte values (`struct Step(u8)`), modeled as `ℕ`.
* `Graph` models `petgraph::Graph<Step, ()>` as produced by
  `DiGraphMap::into_graph`: a finite set of (distinct) node weights and a
  finite set of directed edges.
* `part1Seq` embeds `part1`, `schedStep`/`schedRun` embed the loop of
  `part2_internal`, `Instruction.fromStr`/`parse` embed the input parsing.
-/

/-- `Step::duration`: `u32::from(self.0 - b'A' + 1) + base_time`.
The `u8` subtraction `self.0 - b'A'` is only meaningful when the byte is at
least `b'A' = 65`; this total version uses truncated `ℕ` subtraction and is
used by the scheduler (all claims about it assume identifiers `≥ 65`). -/
def Step.duration (s : ℕ) (base : ℕ) : ℕ := (s - 65 + 1) + base

/-- `Step::duration` with the `u8` subtraction `self.0 - b'A'` made explicit
as a guarded (checked) subtraction: `none` is the underflow branch, which in
the source is a `u8` arithmetic overflow (a panic in debug builds). -/
def Step.durationChecked (s : ℕ) (base : ℕ) : Option ℕ :=
  if s < 65 then none else some ((s - 65 + 1) + base)

/-- The graph model: node weights and directed edges, as sets (petgraph's
`DiGraphMap` keys nodes by weight and stores at most one edge per ordered
pair, and `into_graph` preserves this). -/
structure Graph where
  nodes : Finset ℕ
  edges : Finset (ℕ × ℕ)

instance : DecidableEq Graph := fun a b =>
  decidable_of_iff (a.nodes = b.nodes ∧ a.edges = b.edges)
    (by cases a; cases b; simp)

/-- Well-formedness maintained by petgraph: every edge joins existing nodes. -/
def Graph.WF (G : Graph) : Prop :=
  ∀ e ∈ G.edges, e.1 ∈ G.nodes ∧ e.2 ∈ G.nodes

instance (G : Graph) : Decidable G.WF := by
  unfold Graph.WF; infer_instance

/-- `graph.externals(Direction::Incoming)`: the nodes with no incoming edge. -/
def externalsIncoming (G : Graph) : Finset ℕ :=
  G.nodes.filter (fun n => ∀ e ∈ G.edges, e.2 ≠ n)

/-- `graph.remove_node(i)`: removes the node and every edge incident to it. -/
def removeNode (G : Graph) (n : ℕ) : Graph :=
  ⟨G.nodes.erase n, G.edges.filter (fun e => e.1 ≠ n ∧ e.2 ≠ n)⟩

theorem removeNode_nodes (G : Graph) (n : ℕ) :
    (removeNode G n).nodes = G.nodes.erase n := rfl

theorem mem_externalsIncoming {G : Graph} {n : ℕ} :
    n ∈ externalsIncoming G ↔ n ∈ G.nodes ∧ ∀ e ∈ G.edges, e.2 ≠ n := by
  simp [externalsIncoming]

theorem externalsIncoming_subset (G : Graph) :
    externalsIncoming G ⊆ G.nodes := Finset.filter_subset _ _

theorem card_removeNode_lt {G : Graph} {n : ℕ} (h : n ∈ G.nodes) :
    (removeNode G n).nodes.card < G.nodes.card := by
  simpa [removeNode_nodes] using Finset.card_erase_lt_of_mem h

/-- The loop of `part1`, with an explicit iteration bound so that the
definition evaluates by reduction: repeatedly take the minimum ready node
(the `min_by_key` over `externals(Direction::Incoming)`), push its weight,
remove it; stop (returning what was accumulated) when there is no ready
node. -/
def part1Aux : ℕ → Graph → List ℕ
  | 0, _ => []
  | fuel + 1, G =>
      match (externalsIncoming G).min with
      | none => []
      | some m => m :: part1Aux fuel (removeNode G m)

/-- `part1`, sequence part: `G.nodes.card` iterations always suffice, since
every iteration removes one node (`part1Seq_eq` recovers the unbounded
recursion of the source loop). -/
def part1Seq (G : Graph) : List ℕ := part1Aux G.nodes.card G

theorem externalsIncoming_of_empty {G : Graph} (h : G.nodes.card = 0) :
    externalsIncoming G = ∅ := by
  have : G.nodes = ∅ := Finset.card_eq_zero.mp h
  simp [externalsIncoming, this]

theorem part1Aux_congr : ∀ (k : ℕ) (G : Graph), G.nodes.card = k →
    ∀ f₁ f₂ : ℕ, k ≤ f₁ → k ≤ f₂ → part1Aux f₁ G = part1Aux f₂ G := by
  intro k
  induction k using Nat.strong_induction_on with
  | _ k ih =>
    intro G hk f₁ f₂ h₁ h₂
    match k, f₁, f₂ with
    | 0, 0, 0 => rfl
    | 0, 0, _ + 1 => simp [part1Aux, externalsIncoming_of_empty hk]
    | 0, _ + 1, 0 => simp [part1Aux, externalsIncoming_of_empty hk]
    | 0, _ + 1, _ + 1 => simp [part1Aux, externalsIncoming_of_empty hk]
    | k + 1, g₁ + 1, g₂ + 1 =>
        simp only [part1Aux]
        match hmin : (externalsIncoming G).min with
        | none => rfl
        | some m =>
          have hm : m ∈ G.nodes := externalsIncoming_subset G (Finset.mem_of_min hmin)
          have hcard : (removeNode G m).nodes.card = k := by
            have := Finset.card_erase_of_mem hm
            rw [removeNode_nodes, this, hk]
            omega
          simp only [List.cons.injEq, true_and]
          exact ih k (by omega) _ hcard g₁ g₂ (by omega) (by omega)

/-- The unbounded recursion of the `part1` loop, recovered. -/
theorem part1Seq_eq (G : Graph) :
    part1Seq G = match (externalsIncoming G).min with
      | none => []
      | some m => m :: part1Seq (removeNode G m) := by
  unfold part1Seq
  match hc : G.nodes.card with
  | 0 => simp [part1Aux, externalsIncoming_of_empty hc]
  | c + 1 =>
      simp only [part1Aux]
      match hmin : (externalsIncoming G).min with
      | none => rfl
      | some m =>
        have hm : m ∈ G.nodes := externalsIncoming_subset G (Finset.mem_of_min hmin)
        have hcard : (removeNode G m).nodes.card = c := by
          have := Finset.card_erase_of_mem hm
          rw [removeNode_nodes, this, hc]
          omega
        simp only [List.cons.injEq, true_and]
        exact part1Aux_congr (removeNode G m).nodes.card (removeNode G m) rfl c
          (removeNode G m).nodes.card (by omega) le_rfl

/-- ASCII-restricted model of `String::from_utf8` (sufficient here: every
byte this program ever pushes into the sequence is compared/used as a plain
byte, and all concrete claims use ASCII identifiers). -/
def stringFromUtf8 (l : List ℕ) : Option (List Char) :=
  if l.all (· < 128) then some (l.map Char.ofNat) else none

/-- `part1`: the byte sequence of `part1Seq`, converted to a string. -/
def part1 (G : Graph) : Option (List Char) := stringFromUtf8 (part1Seq G)

/-- `Instruction { required, step }`. -/
structure Instruction where
  required : ℕ
  step : ℕ
deriving DecidableEq

/-- Bytes of an ASCII string (for ASCII, `char` codes coincide with the
UTF-8 bytes that `str::as_bytes` exposes). -/
def bytesOf (s : String) : List ℕ := s.data.map Char.toNat

/-- The length check template of `Instruction::from_str`. -/
def templateLen : ℕ := (bytesOf "Step C must be finished before step A can begin.").length

/-- `Instruction::from_str`: reject any line whose byte length differs from
the template, otherwise read the raw bytes at positions 5 and 36. -/
def Instruction.fromStr (s : List ℕ) : Except String Instruction :=
  if s.length ≠ templateLen then .error "Wrong length"
  else .ok ⟨s.getD 5 0, s.getD 36 0⟩

/-- `DiGraphMap::add_node` (idempotent). -/
def addNode (G : Graph) (n : ℕ) : Graph := ⟨insert n G.nodes, G.edges⟩

/-- `DiGraphMap::add_edge` (at most one edge per ordered pair). -/
def addEdge (G : Graph) (a b : ℕ) : Graph := ⟨G.nodes, insert (a, b) G.edges⟩

/-- The body of the `parse` loop for one line. -/
def parseLine (g : Graph) (l : List ℕ) : Except String Graph := do
  let i ← Instruction.fromStr l
  pure (addEdge (addNode (addNode g i.required) i.step) i.required i.step)

/-- `parse`: fold the lines of the input (given as byte lists) over an empty
graph, propagating the first error. -/
def parse (input : List (List ℕ)) : Except String Graph :=
  input.foldlM parseLine ⟨∅, ∅⟩

/-- The edge relation of a graph. -/
def edgeRel (G : Graph) (a b : ℕ) : Prop := (a, b) ∈ G.edges

/-- Acyclicity: no node reaches itself through a nonempty edge path. -/
def Acyclic (G : Graph) : Prop := ∀ n, ¬ Relation.TransGen (edgeRel G) n n

/-! ## The scheduler of `part2_internal`

A worker is `(Option<Step>, u32)`: its current job and its clock. -/

/-- One worker: `(current job, clock)`. -/
abbrev Worker := Option ℕ × ℕ

/-- The comparator handed to `min_by` in `part2_internal`: clock first, and a
busy worker (`Some`) compares `Less` than an idle one (`None`) on clock
ties. `true` means strictly less. -/
def workerLtb (a b : Worker) : Bool :=
  a.2 < b.2 || (a.2 == b.2 && a.1.isSome && b.1.isNone)

/-- Rust's `Iterator::min_by` keeps the accumulator on ties, so it returns
the first minimal element; this fold mirrors that, also tracking the index. -/
def selectAux : List Worker → ℕ → ℕ → Worker → ℕ × Worker
  | [], _, bi, bw => (bi, bw)
  | w :: ws, i, bi, bw =>
      if workerLtb w bw then selectAux ws (i + 1) i w
      else selectAux ws (i + 1) bi bw

/-- `workers.iter_mut().min_by(...)`: `none` on an empty worker list (the
source then panics on `unwrap()`). -/
def selectWorker (ws : List Worker) : Option (ℕ × Worker) :=
  match ws with
  | [] => none
  | w :: rest => some (selectAux rest 1 0 w)

/-- `Ord` on `Option<Step>`: `None < Some _`, `Some a < Some b ↔ a < b`. -/
def optLtb : Option ℕ → Option ℕ → Bool
  | none, some _ => true
  | some a, some b => a < b
  | _, _ => false

/-- Derived `Ord` on the worker pair `(Option<Step>, u32)`, lexicographic. -/
def workerPairLtb (a b : Worker) : Bool :=
  optLtb a.1 b.1 || (a.1 == b.1 && a.2 < b.2)

/-- Rust's `Iterator::max` keeps the new element on ties (returns the last
maximal element); used for `workers.into_iter().max()` at the `break`. -/
def maxWorker (ws : List Worker) : Option Worker :=
  match ws with
  | [] => none
  | w :: rest => some (rest.foldl (fun acc x => if workerPairLtb x acc then acc else x) w)

/-- The mutable state of the `part2_internal` loop. -/
structure SchedState where
  remaining : Graph
  workers : List Worker
  started : List ℕ
deriving DecidableEq

/-- Result of one loop iteration. -/
inductive StepRes where
  /-- an `unwrap()` failed -/
  | panicked : StepRes
  /-- loop continues with a new state -/
  | next (S : SchedState) : StepRes
  /-- `break` with the total time (the final started list is kept as an
  observable) -/
  | done (t : ℕ) (started : List ℕ) : StepRes
deriving DecidableEq

/-- The second half of a loop iteration of `part2_internal`: try to assign
the smallest ready unstarted step to the selected worker `i` (whose job was
taken by `job.take()` and whose clock is `time`); otherwise break if the
graph is exhausted, else advance the worker's clock by one. -/
def assignPhase (base : ℕ) (S : SchedState) (i : ℕ) (time : ℕ) : StepRes :=
  match ((externalsIncoming S.remaining).filter (fun s => s ∉ S.started)).min with
  | some st =>
      .next ⟨S.remaining,
             S.workers.set i (some st, time + Step.duration st base),
             st :: S.started⟩
  | none =>
      if S.remaining.nodes.card = 0 then
        match maxWorker (S.workers.set i (none, time)) with
        | some w => .done w.2 S.started
        | none => .panicked
      else
        .next ⟨S.remaining, S.workers.set i (none, time + 1), S.started⟩

/-- One full iteration of the `part2_internal` loop: select the worker with
minimal `(clock, busy-first)`, take and retire its job if any (panicking, as
the source's `unwrap()` does, if the job is not a ready node of the
remaining graph), then run the assignment phase. -/
def schedStep (base : ℕ) (S : SchedState) : StepRes :=
  match selectWorker S.workers with
  | none => .panicked
  | some (i, (job, time)) =>
      match job with
      | some s =>
          if s ∈ externalsIncoming S.remaining then
            assignPhase base ⟨removeNode S.remaining s, S.workers, S.started⟩ i time
          else .panicked
      | none => assignPhase base S i time

/-- Outcome of running the loop with a fuel bound: `timeout` means the loop
was still running after `fuel` iterations (the source loop has no built-in
bound; on cyclic inputs it runs forever). -/
inductive SchedOut where
  | panicked : SchedOut
  | timeout : SchedOut
  | done (t : ℕ) (started : List ℕ) : SchedOut
deriving DecidableEq

/-- Run the `part2_internal` loop for at most `fuel` iterations. -/
def schedRun (base : ℕ) : ℕ → SchedState → SchedOut
  | 0, _ => .timeout
  | fuel + 1, S =>
      match schedStep base S with
      | .panicked => .panicked
      | .done t st => .done t st
      | .next S2 => schedRun base fuel S2

/-- `part2_internal(graph, nb_worker, base_time)`, fuel-bounded. -/
def part2_internal (G : Graph) (nbWorker : ℕ) (base : ℕ) (fuel : ℕ) : SchedOut :=
  schedRun base fuel ⟨G, List.replicate nbWorker (none, 0), []⟩

/-- `part2(graph) = part2_internal(graph, 5, 60)`. -/
def part2 (G : Graph) (fuel : ℕ) : SchedOut := part2_internal G 5 60 fuel

instance {ε α : Type} [DecidableEq ε] [DecidableEq α] : DecidableEq (Except ε α) :=
  fun a b =>
  match a, b with
  | .ok x, .ok y => decidable_of_iff (x = y) (by simp)
  | .error e, .error f => decidable_of_iff (e = f) (by simp)
  | .ok _, .error _ => isFalse (by simp)
  | .error _, .ok _ => isFalse (by simp)

/-! ## Concrete inputs used by the claims -/

/-- The empty graph. -/
def emptyG : Graph := ⟨∅, ∅⟩

/-- A two-node cycle `A→B, B→A`. -/
def cycleGraph : Graph := ⟨{65, 66}, {(65, 66), (66, 65)}⟩

/-- The canonical 7-line example input of the source's test module. -/
def canonicalInput : List (List ℕ) :=
  [bytesOf "Step C must be finished before step A can begin.",
   bytesOf "Step C must be finished before step F can begin.",
   bytesOf "Step A must be finished before step B can begin.",
   bytesOf "Step A must be finished before step D can begin.",
   bytesOf "Step B must be finished before step E can begin.",
   bytesOf "Step D must be finished before step E can begin.",
   bytesOf "Step F must be finished before step E can begin."]

/-- The canonical 6-node graph (`A..F` are bytes `65..70`) with edges
`C→A, C→F, A→B, A→D, B→E, D→E, F→E`. -/
def canonicalGraph : Graph :=
  ⟨{65, 66, 67, 68, 69, 70},
   {(67, 65), (67, 70), (65, 66), (65, 68), (66, 69), (68, 69), (70, 69)}⟩

/-! ## Generic facts about worker selection and list updates -/

theorem selectAux_choice : ∀ (ws : List Worker) (i bi : ℕ) (bw : Worker),
    (selectAux ws i bi bw).2 = bw ∨ (selectAux ws i bi bw).2 ∈ ws := by
  intro ws
  induction ws with
  | nil => intro i bi bw; left; rfl
  | cons w rest ih =>
    intro i bi bw
    simp only [selectAux]
    by_cases h : workerLtb w bw = true
    · rw [if_pos h]
      rcases ih (i + 1) i w with h' | h'
      · right; rw [h']; exact List.mem_cons_self _ _
      · right; exact List.mem_cons_of_mem _ h'
    · rw [if_neg h]
      rcases ih (i + 1) bi bw with h' | h'
      · left; exact h'
      · right; exact List.mem_cons_of_mem _ h'

theorem selectWorker_choice {ws : List Worker} {i : ℕ} {w : Worker}
    (h : selectWorker ws = some (i, w)) : w ∈ ws := by
  match ws with
  | [] => simp [selectWorker] at h
  | w0 :: rest =>
    simp only [selectWorker, Option.some.injEq] at h
    have := selectAux_choice rest 1 0 w0
    rw [h] at this
    rcases this with h' | h'
    · exact List.mem_cons.mpr (Or.inl h')
    · exact List.mem_cons_of_mem _ h'

theorem mem_of_mem_set : ∀ (l : List Worker) (n : ℕ) (a x : Worker),
    x ∈ l.set n a → x = a ∨ x ∈ l := by
  intro l
  induction l with
  | nil => intro n a x h; simp at h
  | cons b rest ih =>
    intro n a x h
    match n with
    | 0 =>
        rcases List.mem_cons.mp h with h' | h'
        · left; exact h'
        · right; exact List.mem_cons_of_mem _ h'
    | n + 1 =>
        rcases List.mem_cons.mp h with h' | h'
        · right; rw [h']; exact List.mem_cons_self _ _
        · rcases ih n a x h' with h'' | h''
          · left; exact h''
          · right; exact List.mem_cons_of_mem _ h''

/-! ## Behavior on a graph with a cycle -/

/-- When the remaining graph has no ready node but is nonempty and every
worker is idle, one iteration of the scheduler loop only advances a clock:
the graph, the started list and the idleness are all preserved. -/
theorem schedStep_stuck {base : ℕ} {S : SchedState}
    (hready : externalsIncoming S.remaining = ∅)
    (hcard : S.remaining.nodes.card ≠ 0)
    (hne : S.workers ≠ [])
    (hidle : ∀ w ∈ S.workers, w.1 = none) :
    ∃ S2, schedStep base S = .next S2 ∧ S2.remaining = S.remaining ∧
      S2.workers ≠ [] ∧ (∀ w ∈ S2.workers, w.1 = none) ∧ S2.started = S.started := by
  match hws : S.workers with
  | [] => exact absurd hws hne
  | w0 :: rest =>
    have hsel : selectWorker S.workers = some (selectAux rest 1 0 w0) := by
      rw [hws]; rfl
    obtain ⟨i, job, time, hx⟩ : ∃ i job time, selectAux rest 1 0 w0 = (i, (job, time)) :=
      ⟨(selectAux rest 1 0 w0).1, (selectAux rest 1 0 w0).2.1,
       (selectAux rest 1 0 w0).2.2, rfl⟩
    have hjob : job = none := by
      have hmem : ((job : Option ℕ), time) ∈ S.workers :=
        selectWorker_choice (by rw [hsel, hx])
      exact hidle _ hmem
    refine ⟨⟨S.remaining, S.workers.set i (none, time + 1), S.started⟩, ?_, rfl, ?_, ?_, rfl⟩
    · unfold schedStep
      rw [hsel, hx, hjob]
      unfold assignPhase
      rw [hready]
      simp only [Finset.filter_empty, Finset.min_empty]
      rw [if_neg hcard]
    · intro h
      have := congrArg List.length h
      rw [List.length_set, hws] at this
      simp at this
    · intro w hw
      rcases mem_of_mem_set _ _ _ _ hw with h' | h'
      · rw [h']
      · exact hidle _ h'

/-- The scheduler loop never terminates from such a state: it times out for
every fuel bound. -/
theorem schedRun_stuck {base : ℕ} : ∀ (fuel : ℕ) (S : SchedState),
    externalsIncoming S.remaining = ∅ → S.remaining.nodes.card ≠ 0 →
    S.workers ≠ [] → (∀ w ∈ S.workers, w.1 = none) →
    schedRun base fuel S = .timeout := by
  intro fuel
  induction fuel with
  | zero => intro S _ _ _ _; rfl
  | succ fuel ih =>
    intro S h1 h2 h3 h4
    obtain ⟨S2, hstep, hrem, hne, hidle, _⟩ := schedStep_stuck h1 h2 h3 h4
    unfold schedRun
    rw [hstep]
    exact ih S2 (by rw [hrem]; exact h1) (by rw [hrem]; exact h2) hne hidle

/-- C1 (code evaluation at the failing input): on the two-node cycle
`A→B, B→A`, `part1` silently returns `Ok("")` — an empty partial sequence,
not a `CycleDetected` error — and `part2_internal` never leaves its loop
(it times out for every iteration bound), since no ready node ever appears
while the node count stays positive. There is no cycle detection anywhere
in the code. -/
theorem cycle_no_detection :
    part1 cycleGraph = some [] ∧
    part1Seq cycleGraph = [] ∧
    ∀ fuel, part2_internal cycleGraph 2 0 fuel = .timeout := by
  refine ⟨by decide, by decide, ?_⟩
  intro fuel
  apply schedRun_stuck
  · decide
  · decide
  · decide
  · intro w hw
    rcases List.eq_of_mem_replicate hw with rfl
    rfl

/-- C7 (code evaluation at the failing input): with `nb_worker = 0` the
very first iteration's `min_by(...).unwrap()` is an `unwrap` of `None`,
i.e. a panic — not a recoverable `InvalidParameters` error. -/
theorem zero_workers_panic (G : Graph) (B fuel : ℕ) :
    part2_internal G 0 B (fuel + 1) = .panicked := rfl

/-- C8: on the canonical graph, `parse` produces exactly that graph from the
seven template sentences, `part1` returns `Ok("CABDFE")`, and
`part2_internal` with 2 workers and base 0 halts (16 iterations suffice)
with total time 15. -/
theorem canonical_example :
    parse canonicalInput = .ok canonicalGraph ∧
    part1 canonicalGraph = some ("CABDFE".toList) ∧
    ∃ st, part2_internal canonicalGraph 2 0 16 = .done 15 st := by
  exact ⟨by decide, by decide, [69, 68, 66, 70, 65, 67], by decide⟩

/-! ## The empty graph -/

theorem selectAux_replicate (k : ℕ) : ∀ i bi,
    selectAux (List.replicate k ((none : Option ℕ), 0)) i bi (none, 0) = (bi, (none, 0)) := by
  induction k with
  | zero => intro i bi; rfl
  | succ k ih =>
    intro i bi
    rw [List.replicate_succ]
    simp only [selectAux]
    rw [if_neg (by decide)]
    exact ih _ _

theorem foldl_max_replicate (k : ℕ) :
    List.foldl (fun acc x => if workerPairLtb x acc then acc else x)
      ((none : Option ℕ), 0) (List.replicate k (none, 0)) = (none, 0) := by
  induction k with
  | zero => rfl
  | succ k ih =>
    rw [List.replicate_succ]
    simp only [List.foldl_cons]
    rw [if_neg (by decide)]
    exact ih

/-- C9: on the empty graph, `part1` returns `Ok("")`, and for every worker
count `N ≥ 1` and every base duration the scheduler halts in its very first
iteration with total time 0 and an empty started list (no step was ever
assigned to any worker). -/
theorem empty_graph_behavior (N B : ℕ) (h : 1 ≤ N) :
    part1 emptyG = some [] ∧
    part2_internal emptyG N B 1 = .done 0 [] := by
  refine ⟨by decide, ?_⟩
  obtain ⟨k, rfl⟩ : ∃ k, N = k + 1 := ⟨N - 1, by omega⟩
  unfold part2_internal schedRun schedStep
  rw [List.replicate_succ]
  simp only [selectWorker]
  rw [selectAux_replicate]
  unfold assignPhase
  have hready : externalsIncoming emptyG = ∅ := rfl
  rw [hready]
  simp only [Finset.filter_empty, Finset.min_empty]
  rw [if_pos (by decide)]
  simp only [List.set]
  rw [← List.replicate_succ]
  unfold maxWorker
  rw [List.replicate_succ]
  simp only []
  rw [foldl_max_replicate]

/-- C9 witness: instantiated at `N = 3`, `B = 7`. -/
theorem empty_graph_behavior_witness :
    1 ≤ 3 ∧ (part1 emptyG = some [] ∧ part2_internal emptyG 3 7 1 = .done 0 []) :=
  ⟨by decide, empty_graph_behavior 3 7 (by decide)⟩

/-! ## Underflowing identifiers reachable through the parser -/

/-- A line of exactly the template length whose byte at position 5 is
`b'0' = 48 < b'A'`. -/
def badLine : List ℕ := bytesOf "Step 0 must be finished before step A can begin."

/-- C10: the guarded form of `Step::duration`'s `u8` subtraction hits its
error (underflow) branch for every identifier byte below `b'A' = 65`, and
such identifiers are reachable from the public interface: the parser
accepts any line of the template length and reads the raw bytes at
positions 5 and 36 unchecked, so `"Step 0 must ..."` yields a graph
containing the step `48`, whose duration computation underflows. -/
theorem duration_underflow_reachable :
    (∀ b base, b < 65 → Step.durationChecked b base = none) ∧
    Instruction.fromStr badLine = .ok ⟨48, 65⟩ ∧
    parse [badLine] = .ok ⟨{48, 65}, {(48, 65)}⟩ ∧
    Step.durationChecked 48 0 = none := by
  refine ⟨?_, by decide, by decide, by decide⟩
  intro b base h
  simp [Step.durationChecked, h]

/-- C10 witness: the underflow branch at the concrete byte `48`. -/
theorem duration_underflow_reachable_witness :
    (48 : ℕ) < 65 ∧ Step.durationChecked 48 0 = none :=
  ⟨by decide, duration_underflow_reachable.1 48 0 (by decide)⟩

/-! ## Acyclic graphs: a nonempty remaining graph always has a ready node -/

theorem acyclic_removeNode {G : Graph} (h : Acyclic G) (n : ℕ) :
    Acyclic (removeNode G n) := by
  intro x hx
  apply h x
  refine Relation.TransGen.mono ?_ hx
  intro a b hab
  exact (Finset.mem_filter.mp hab).1

theorem wf_removeNode {G : Graph} (h : G.WF) (n : ℕ) : (removeNode G n).WF := by
  intro e he
  obtain ⟨he', h1, h2⟩ : e ∈ G.edges ∧ e.1 ≠ n ∧ e.2 ≠ n := by
    have := Finset.mem_filter.mp he
    exact ⟨this.1, this.2⟩
  obtain ⟨m1, m2⟩ := h e he'
  exact ⟨Finset.mem_erase.mpr ⟨h1, m1⟩, Finset.mem_erase.mpr ⟨h2, m2⟩⟩

theorem mem_removeNode_edges {G : Graph} {e : ℕ × ℕ} {n : ℕ} :
    e ∈ (removeNode G n).edges ↔ e ∈ G.edges ∧ e.1 ≠ n ∧ e.2 ≠ n := by
  simp [removeNode]

/-- In a well-formed acyclic graph with at least one node, some node has no
incoming edge. -/
theorem ready_nonempty {G : Graph} (hwf : G.WF) (hac : Acyclic G)
    (hne : G.nodes.Nonempty) : (externalsIncoming G).Nonempty := by
  classical
  let r : ↥G.nodes → ↥G.nodes → Prop :=
    fun a b => Relation.TransGen (edgeRel G) a.1 b.1
  have : IsTrans ↥G.nodes r := ⟨fun _ _ _ h₁ h₂ => Relation.TransGen.trans h₁ h₂⟩
  have : IsIrrefl ↥G.nodes r := ⟨fun a ha => hac a.1 ha⟩
  have hwfd : WellFounded r := Finite.wellFounded_of_trans_of_irrefl r
  obtain ⟨n, hn⟩ := hne
  obtain ⟨m, _, hmin⟩ := hwfd.has_min Set.univ ⟨⟨n, hn⟩, Set.mem_univ _⟩
  refine ⟨m.1, mem_externalsIncoming.mpr ⟨m.2, ?_⟩⟩
  intro e he h2
  have h1 : e.1 ∈ G.nodes := (hwf e he).1
  apply hmin ⟨e.1, h1⟩ (Set.mem_univ _)
  exact Relation.TransGen.single (show edgeRel G e.1 m.1 by rw [← h2]; exact he)

theorem part1Seq_eq_none {G : Graph} (h : (externalsIncoming G).min = none) :
    part1Seq G = [] := by rw [part1Seq_eq, h]

theorem part1Seq_eq_some {G : Graph} {m : ℕ} (h : (externalsIncoming G).min = some m) :
    part1Seq G = m :: part1Seq (removeNode G m) := by rw [part1Seq_eq, h]

/-- If the remaining graph is nonempty (well-formed, acyclic), `part1`'s
loop finds a minimal ready node. -/
theorem part1_min_some {G : Graph} (hwf : G.WF) (hac : Acyclic G)
    (hne : G.nodes.Nonempty) : ∃ m, (externalsIncoming G).min = some m := by
  obtain ⟨x, hx⟩ := ready_nonempty hwf hac hne
  exact Finset.min_of_mem hx

/-! ## `part1` output is a topological order (C2) -/

/-- Unconditionally (no acyclicity needed): if an edge's target made it into
the output sequence, so did its source, strictly earlier. -/
theorem part1_edge_order : ∀ (k : ℕ) (G : Graph), G.nodes.card = k → G.WF →
    ∀ a b : ℕ, (a, b) ∈ G.edges → b ∈ part1Seq G →
    a ∈ part1Seq G ∧ (part1Seq G).indexOf a < (part1Seq G).indexOf b := by
  intro k
  induction k using Nat.strong_induction_on with
  | _ k ih =>
    intro G hk hwf a b hab hb
    match hmin : (externalsIncoming G).min with
    | none => rw [part1Seq_eq_none hmin] at hb; simp at hb
    | some m =>
      rw [part1Seq_eq_some hmin] at hb ⊢
      have hm : m ∈ externalsIncoming G := Finset.mem_of_min hmin
      have hmn : m ∈ G.nodes := externalsIncoming_subset G hm
      have hbm : b ≠ m := by
        intro h
        exact (mem_externalsIncoming.mp hm).2 (a, b) hab (by rw [h])
      have hcard : (removeNode G m).nodes.card = k - 1 := by
        have := Finset.card_erase_of_mem hmn
        rw [removeNode_nodes, this, hk]
      have hklt : k - 1 < k := by
        have : 0 < k := hk ▸ Finset.card_pos.mpr ⟨m, hmn⟩
        omega
      by_cases ham : a = m
      · subst ham
        constructor
        · exact List.mem_cons_self _ _
        · rw [List.indexOf_cons_self, List.indexOf_cons_ne _ (Ne.symm hbm)]
          exact Nat.succ_pos _
      · have hab' : (a, b) ∈ (removeNode G m).edges :=
          mem_removeNode_edges.mpr ⟨hab, ham, hbm⟩
        have hb' : b ∈ part1Seq (removeNode G m) := by
          rcases List.mem_cons.mp hb with h | h
          · exact absurd h hbm
          · exact h
        obtain ⟨ha', hlt⟩ := ih (k - 1) hklt (removeNode G m) hcard
          (wf_removeNode hwf m) a b hab' hb'
        refine ⟨List.mem_cons_of_mem _ ha', ?_⟩
        rw [List.indexOf_cons_ne _ (Ne.symm ham), List.indexOf_cons_ne _ (Ne.symm hbm)]
        exact Nat.succ_lt_succ hlt

/-- C2: on a well-formed acyclic graph, the output of `part1` lists every
node exactly once (it is duplicate-free and its members are exactly the
nodes), and for every edge `required→dependent` the required step appears
strictly earlier in the sequence. -/
theorem part1_topological : ∀ (k : ℕ) (G : Graph), G.nodes.card = k →
    G.WF → Acyclic G →
    (part1Seq G).Nodup ∧ (∀ n, n ∈ part1Seq G ↔ n ∈ G.nodes) ∧
    ∀ e ∈ G.edges, (part1Seq G).indexOf e.1 < (part1Seq G).indexOf e.2 := by
  intro k
  induction k using Nat.strong_induction_on with
  | _ k ih =>
    intro G hk hwf hac
    rcases Finset.eq_empty_or_nonempty G.nodes with hemp | hne
    · have h0 : G.nodes.card = 0 := by rw [hemp]; rfl
      have hseq : part1Seq G = [] := by
        rw [part1Seq_eq, externalsIncoming_of_empty h0, Finset.min_empty]
      refine ⟨by rw [hseq]; exact List.nodup_nil, ?_, ?_⟩
      · intro n; rw [hseq, hemp]; simp
      · intro e he
        obtain ⟨h1, _⟩ := hwf e he
        rw [hemp] at h1
        simp at h1
    · obtain ⟨m, hmin⟩ := part1_min_some hwf hac hne
      have hm : m ∈ externalsIncoming G := Finset.mem_of_min hmin
      have hmn : m ∈ G.nodes := externalsIncoming_subset G hm
      have hseq : part1Seq G = m :: part1Seq (removeNode G m) :=
        part1Seq_eq_some hmin
      have hcard : (removeNode G m).nodes.card = k - 1 := by
        have := Finset.card_erase_of_mem hmn
        rw [removeNode_nodes, this, hk]
      have hklt : k - 1 < k := by
        have : 0 < k := hk ▸ Finset.card_pos.mpr ⟨m, hmn⟩
        omega
      obtain ⟨ihnd, ihmem, ihedge⟩ := ih (k - 1) hklt (removeNode G m) hcard
        (wf_removeNode hwf m) (acyclic_removeNode hac m)
      have hmem : ∀ n, n ∈ part1Seq G ↔ n ∈ G.nodes := by
        intro n
        rw [hseq]
        constructor
        · intro h
          rcases List.mem_cons.mp h with h | h
          · rw [h]; exact hmn
          · have := (ihmem n).mp h
            rw [removeNode_nodes] at this
            exact Finset.mem_of_mem_erase this
        · intro h
          by_cases hn : n = m
          · rw [hn]; exact List.mem_cons_self _ _
          · refine List.mem_cons_of_mem _ ((ihmem n).mpr ?_)
            rw [removeNode_nodes]
            exact Finset.mem_erase.mpr ⟨hn, h⟩
      refine ⟨?_, hmem, ?_⟩
      · rw [hseq]
        refine List.nodup_cons.mpr ⟨?_, ihnd⟩
        intro hcontra
        have := (ihmem m).mp hcontra
        rw [removeNode_nodes] at this
        exact (Finset.mem_erase.mp this).1 rfl
      · intro e he
        have he2m : e.2 ≠ m := by
          intro h
          exact (mem_externalsIncoming.mp hm).2 e he h
        rw [hseq]
        by_cases he1m : e.1 = m
        · rw [he1m, List.indexOf_cons_self, List.indexOf_cons_ne _ (Ne.symm he2m)]
          exact Nat.succ_pos _
        · have he' : e ∈ (removeNode G m).edges :=
            mem_removeNode_edges.mpr ⟨he, he1m, he2m⟩
          rw [List.indexOf_cons_ne _ (Ne.symm he1m), List.indexOf_cons_ne _ (Ne.symm he2m)]
          exact Nat.succ_lt_succ (ihedge e he')

/-- Completeness of the `part1` sweep certifies acyclicity: if every node of
a well-formed graph is visited, the graph has no cycle (each edge strictly
increases the output index, so a cycle is impossible). Decidable premises,
used to discharge `Acyclic` for concrete graphs. -/
theorem acyclic_of_complete {G : Graph} (hwf : G.WF)
    (hcomp : ∀ n ∈ G.nodes, n ∈ part1Seq G) : Acyclic G := by
  intro n hn
  have key : ∀ a b : ℕ, Relation.TransGen (edgeRel G) a b → b ∈ part1Seq G →
      a ∈ part1Seq G ∧ (part1Seq G).indexOf a < (part1Seq G).indexOf b := by
    intro a b h
    induction h with
    | single hab => exact fun hb =>
        part1_edge_order G.nodes.card G rfl hwf _ _ hab hb
    | tail _ hbc ihab =>
        intro hc
        obtain ⟨hb, hlt1⟩ := part1_edge_order G.nodes.card G rfl hwf _ _ hbc hc
        obtain ⟨ha, hlt2⟩ := ihab hb
        exact ⟨ha, hlt2.trans hlt1⟩
  have hnn : n ∈ G.nodes := by
    cases hn with
    | single h => exact (hwf _ h).2
    | tail _ h => exact (hwf _ h).2
  obtain ⟨_, hlt⟩ := key n n hn (hcomp n hnn)
  exact lt_irrefl _ hlt

/-- A valid topological order of a graph: lists every node exactly once and
puts the source of every edge strictly before its target. -/
def IsTopoOrder (G : Graph) (l : List ℕ) : Prop :=
  l.Nodup ∧ (∀ n, n ∈ l ↔ n ∈ G.nodes) ∧
    ∀ e ∈ G.edges, l.indexOf e.1 < l.indexOf e.2

/-- `part1` produces the lexicographically least topological order: it is
below (or equal to) every valid topological order of the graph. -/
theorem part1_lex_least : ∀ (k : ℕ) (G : Graph), G.nodes.card = k →
    G.WF → Acyclic G →
    ∀ l, IsTopoOrder G l → part1Seq G = l ∨ List.Lex (· < ·) (part1Seq G) l := by
  intro k
  induction k using Nat.strong_induction_on with
  | _ k ih =>
    intro G hk hwf hac l htopo
    obtain ⟨hnd, hmem, hedge⟩ := htopo
    rcases Finset.eq_empty_or_nonempty G.nodes with hemp | hne
    · have h0 : G.nodes.card = 0 := by rw [hemp]; rfl
      have hl : l = [] := by
        rw [List.eq_nil_iff_forall_not_mem]
        intro n hn
        have := (hmem n).mp hn
        rw [hemp] at this
        simp at this
      left
      rw [part1Seq_eq, externalsIncoming_of_empty h0, Finset.min_empty, hl]
    · obtain ⟨m, hmin⟩ := part1_min_some hwf hac hne
      have hm : m ∈ externalsIncoming G := Finset.mem_of_min hmin
      have hmn : m ∈ G.nodes := externalsIncoming_subset G hm
      have hseq : part1Seq G = m :: part1Seq (removeNode G m) := part1Seq_eq_some hmin
      match l with
      | [] =>
          exact absurd ((hmem m).mpr hmn) (by simp)
      | y :: l' =>
          have hy : y ∈ externalsIncoming G := by
            refine mem_externalsIncoming.mpr ⟨(hmem y).mp (List.mem_cons_self _ _), ?_⟩
            intro e he h2
            have := hedge e he
            rw [h2, List.indexOf_cons_self] at this
            exact Nat.not_lt_zero _ this
          have hmy : m ≤ y := by
            have := Finset.min_le hy
            rw [hmin] at this
            exact WithTop.coe_le_coe.mp this
          rcases lt_or_eq_of_le hmy with hlt | heq
          · right
            rw [hseq]
            exact List.Lex.rel hlt
          · subst heq
            have hcard : (removeNode G m).nodes.card = k - 1 := by
              have := Finset.card_erase_of_mem hmn
              rw [removeNode_nodes, this, hk]
            have hklt : k - 1 < k := by
              have : 0 < k := hk ▸ Finset.card_pos.mpr ⟨m, hmn⟩
              omega
            have hml' : m ∉ l' := (List.nodup_cons.mp hnd).1
            have htopo' : IsTopoOrder (removeNode G m) l' := by
              refine ⟨(List.nodup_cons.mp hnd).2, ?_, ?_⟩
              · intro n
                rw [removeNode_nodes]
                constructor
                · intro hn
                  refine Finset.mem_erase.mpr ⟨?_, (hmem n).mp (List.mem_cons_of_mem _ hn)⟩
                  intro h
                  rw [h] at hn
                  exact hml' hn
                · intro hn
                  obtain ⟨hne', hnn⟩ := Finset.mem_erase.mp hn
                  rcases List.mem_cons.mp ((hmem n).mpr hnn) with h | h
                  · exact absurd h hne'
                  · exact h
              · intro e he
                obtain ⟨he', h1, h2⟩ := mem_removeNode_edges.mp he
                have := hedge e he'
                rw [List.indexOf_cons_ne _ (Ne.symm h1), List.indexOf_cons_ne _ (Ne.symm h2)] at this
                exact Nat.succ_lt_succ_iff.mp this
            rcases ih (k - 1) hklt (removeNode G m) hcard (wf_removeNode hwf m)
                (acyclic_removeNode hac m) l' htopo' with h | h
            · left; rw [hseq, h]
            · right; rw [hseq]; exact List.Lex.cons h

/-! ## `parse` is insensitive to the order of the input lines -/

/-- The `(required, step)` pair a well-length line decodes to. -/
def pairOf (l : List ℕ) : ℕ × ℕ := (l.getD 5 0, l.getD 36 0)

theorem except_ok_bind {α β : Type} (a : α) (f : α → Except String β) :
    (Except.ok a >>= f) = f a := rfl

theorem except_error_bind {α β : Type} (e : String) (f : α → Except String β) :
    ((Except.error e : Except String α) >>= f) = .error e := rfl

theorem parseLine_ok {g : Graph} {l : List ℕ} (h : l.length = templateLen) :
    parseLine g l =
      .ok (addEdge (addNode (addNode g (pairOf l).1) (pairOf l).2) (pairOf l).1 (pairOf l).2) := by
  unfold parseLine Instruction.fromStr
  rw [if_neg (by omega)]
  rfl

theorem parseLine_err {g : Graph} {l : List ℕ} (h : l.length ≠ templateLen) :
    parseLine g l = .error "Wrong length" := by
  unfold parseLine Instruction.fromStr
  rw [if_pos h]
  rfl

theorem parse_ok_lengths : ∀ (input : List (List ℕ)) (g0 g : Graph),
    input.foldlM parseLine g0 = .ok g → ∀ l ∈ input, l.length = templateLen := by
  intro input
  induction input with
  | nil => intro g0 g _ l hl; simp at hl
  | cons a rest ih =>
    intro g0 g h l hl
    rw [List.foldlM_cons] at h
    by_cases ha : a.length = templateLen
    · rcases List.mem_cons.mp hl with rfl | hl'
      · exact ha
      · rw [parseLine_ok ha, except_ok_bind] at h
        exact ih _ g h l hl'
    · rw [parseLine_err ha, except_error_bind] at h
      exact Except.noConfusion h

theorem parse_all_lengths_ok : ∀ (input : List (List ℕ)) (g0 : Graph),
    (∀ l ∈ input, l.length = templateLen) →
    ∃ g, input.foldlM parseLine g0 = .ok g := by
  intro input
  induction input with
  | nil => intro g0 _; exact ⟨g0, rfl⟩
  | cons a rest ih =>
    intro g0 hlen
    rw [List.foldlM_cons, parseLine_ok (hlen a (List.mem_cons_self _ _)), except_ok_bind]
    exact ih _ (fun l hl => hlen l (List.mem_cons_of_mem _ hl))

theorem parse_ok_mem : ∀ (input : List (List ℕ)) (g0 g : Graph),
    input.foldlM parseLine g0 = .ok g →
    (∀ n, n ∈ g.nodes ↔
        n ∈ g0.nodes ∨ ∃ l ∈ input, n = (pairOf l).1 ∨ n = (pairOf l).2) ∧
    (∀ e, e ∈ g.edges ↔ e ∈ g0.edges ∨ ∃ l ∈ input, e = pairOf l) := by
  intro input
  induction input with
  | nil =>
    intro g0 g h
    rw [List.foldlM_nil] at h
    have : g0 = g := Except.ok.inj (show Except.ok g0 = .ok g from h)
    subst this
    constructor
    · intro n; simp
    · intro e; simp
  | cons a rest ih =>
    intro g0 g h
    rw [List.foldlM_cons] at h
    by_cases ha : a.length = templateLen
    · rw [parseLine_ok ha, except_ok_bind] at h
      obtain ⟨ihn, ihe⟩ := ih _ g h
      constructor
      · intro n
        rw [ihn n]
        simp only [addEdge, addNode, Finset.mem_insert, List.mem_cons]
        constructor
        · rintro ((h1 | h1 | h1) | ⟨l, hl, h2⟩)
          · exact Or.inr ⟨a, Or.inl rfl, Or.inr h1⟩
          · exact Or.inr ⟨a, Or.inl rfl, Or.inl h1⟩
          · exact Or.inl h1
          · exact Or.inr ⟨l, Or.inr hl, h2⟩
        · rintro (h1 | ⟨l, (rfl | hl), h2⟩)
          · exact Or.inl (Or.inr (Or.inr h1))
          · rcases h2 with h2 | h2
            · exact Or.inl (Or.inr (Or.inl h2))
            · exact Or.inl (Or.inl h2)
          · exact Or.inr ⟨l, hl, h2⟩
      · intro e
        rw [ihe e]
        simp only [addEdge, addNode, Finset.mem_insert, List.mem_cons]
        constructor
        · rintro ((h1 | h1) | ⟨l, hl, h2⟩)
          · exact Or.inr ⟨a, Or.inl rfl, h1⟩
          · exact Or.inl h1
          · exact Or.inr ⟨l, Or.inr hl, h2⟩
        · rintro (h1 | ⟨l, (rfl | hl), h2⟩)
          · exact Or.inl (Or.inr h1)
          · exact Or.inl (Or.inl h2)
          · exact Or.inr ⟨l, hl, h2⟩
    · rw [parseLine_err ha, except_error_bind] at h
      exact Except.noConfusion h

/-- Permuting the input lines leaves the parsed graph unchanged. -/
theorem parse_perm {l₁ l₂ : List (List ℕ)} (hp : l₁.Perm l₂) {g₁ : Graph}
    (h₁ : parse l₁ = .ok g₁) : parse l₂ = .ok g₁ := by
  have hlen := parse_ok_lengths l₁ _ g₁ h₁
  obtain ⟨g₂, h₂⟩ := parse_all_lengths_ok l₂ ⟨∅, ∅⟩
    (fun l hl => hlen l (hp.mem_iff.mpr hl))
  obtain ⟨hn₁, he₁⟩ := parse_ok_mem l₁ _ g₁ h₁
  obtain ⟨hn₂, he₂⟩ := parse_ok_mem l₂ _ g₂ h₂
  have : g₂ = g₁ := by
    have hnodes : g₂.nodes = g₁.nodes := by
      apply Finset.ext
      intro n
      rw [hn₁ n, hn₂ n]
      constructor
      · rintro (h | ⟨l, hl, h⟩)
        · exact Or.inl h
        · exact Or.inr ⟨l, hp.mem_iff.mpr hl, h⟩
      · rintro (h | ⟨l, hl, h⟩)
        · exact Or.inl h
        · exact Or.inr ⟨l, hp.mem_iff.mp hl, h⟩
    have hedges : g₂.edges = g₁.edges := by
      apply Finset.ext
      intro e
      rw [he₁ e, he₂ e]
      constructor
      · rintro (h | ⟨l, hl, h⟩)
        · exact Or.inl h
        · exact Or.inr ⟨l, hp.mem_iff.mpr hl, h⟩
      · rintro (h | ⟨l, hl, h⟩)
        · exact Or.inl h
        · exact Or.inr ⟨l, hp.mem_iff.mp hl, h⟩
    cases g₁; cases g₂
    simp only at hnodes hedges
    rw [Graph.mk.injEq]
    exact ⟨hnodes, hedges⟩
  exact this ▸ h₂

/-- C3: on a well-formed acyclic graph, (i) `part1`'s output is
lexicographically least among all valid topological orders; (ii) the loop
always extends the output with the least ready step of the remaining graph;
(iii) the result is a pure function of the graph, independent of the order
in which the input lines (edge insertions) are supplied to `parse`. -/
theorem part1_lex_smallest_deterministic (G : Graph) (hwf : G.WF) (hac : Acyclic G) :
    (∀ l, IsTopoOrder G l → part1Seq G = l ∨ List.Lex (· < ·) (part1Seq G) l) ∧
    (∀ m, (externalsIncoming G).min = some m →
        part1Seq G = m :: part1Seq (removeNode G m) ∧
        ∀ x ∈ externalsIncoming G, m ≤ x) ∧
    (∀ input₁ input₂ : List (List ℕ), ∀ g₁ g₂ : Graph, input₁.Perm input₂ →
        parse input₁ = .ok g₁ → parse input₂ = .ok g₂ →
        g₂ = g₁ ∧ part1Seq g₂ = part1Seq g₁) := by
  refine ⟨part1_lex_least G.nodes.card G rfl hwf hac, ?_, ?_⟩
  · intro m hmin
    refine ⟨part1Seq_eq_some hmin, ?_⟩
    intro x hx
    have := Finset.min_le hx
    rw [hmin] at this
    exact WithTop.coe_le_coe.mp this
  · intro input₁ input₂ g₁ g₂ hp h₁ h₂
    have := parse_perm hp h₁
    rw [this] at h₂
    have : g₂ = g₁ := by
      have := h₂
      simp only [Except.ok.injEq] at this
      exact this.symm
    exact ⟨this, by rw [this]⟩

/-- C3 witness: instantiated on the canonical graph; the tie-break component
checked at the first loop iteration (`min = C = 67`), the permutation
component at a transposition of the first two canonical lines. -/
theorem part1_lex_smallest_deterministic_witness :
    (∀ l, IsTopoOrder canonicalGraph l →
        part1Seq canonicalGraph = l ∨ List.Lex (· < ·) (part1Seq canonicalGraph) l) ∧
    (part1Seq canonicalGraph = 67 :: part1Seq (removeNode canonicalGraph 67) ∧
        ∀ x ∈ externalsIncoming canonicalGraph, 67 ≤ x) := by
  have h := part1_lex_smallest_deterministic canonicalGraph (by decide)
    (acyclic_of_complete (by decide) (by decide))
  exact ⟨h.1, h.2.1 67 (by decide)⟩

/-- C2 witness: instantiated on the canonical graph (acyclicity certified by
the completeness of the concrete `part1` run). -/
theorem part1_topological_witness :
    (part1Seq canonicalGraph).Nodup ∧
    (∀ n, n ∈ part1Seq canonicalGraph ↔ n ∈ canonicalGraph.nodes) ∧
    ∀ e ∈ canonicalGraph.edges,
      (part1Seq canonicalGraph).indexOf e.1 < (part1Seq canonicalGraph).indexOf e.2 :=
  part1_topological canonicalGraph.nodes.card canonicalGraph rfl (by decide)
    (acyclic_of_complete (by decide) (by decide))

/-! ## The scheduler with a single worker (C4) -/

/-- When every already-started step is gone from the remaining graph, the
`!started.contains(...)` filter of the assignment phase keeps the whole
ready set. -/
theorem filter_started_all {R : Graph} {started : List ℕ}
    (h : ∀ x ∈ started, x ∉ R.nodes) :
    (externalsIncoming R).filter (fun s => s ∉ started) = externalsIncoming R := by
  apply Finset.filter_true_of_mem
  intro x hx hmem
  exact h x hmem (externalsIncoming_subset _ hx)

theorem schedStep_single {base t s : ℕ} {R : Graph} {started : List ℕ}
    (hs : s ∈ externalsIncoming R) :
    schedStep base ⟨R, [(some s, t)], started⟩ =
      assignPhase base ⟨removeNode R s, [(some s, t)], started⟩ 0 t := by
  unfold schedStep
  simp only [selectWorker, selectAux]
  rw [if_pos hs]

theorem assignPhase_assign {base : ℕ} {R : Graph} {ws : List Worker}
    {started : List ℕ} {i time m : ℕ}
    (h : ((externalsIncoming R).filter (fun s => s ∉ started)).min = some m) :
    assignPhase base ⟨R, ws, started⟩ i time =
      .next ⟨R, ws.set i (some m, time + Step.duration m base), m :: started⟩ := by
  unfold assignPhase
  rw [h]

theorem assignPhase_stop {base : ℕ} {R : Graph} {ws : List Worker}
    {started : List ℕ} {i time : ℕ}
    (h : ((externalsIncoming R).filter (fun s => s ∉ started)).min = none)
    (hc : R.nodes.card = 0) :
    assignPhase base ⟨R, ws, started⟩ i time =
      match maxWorker (ws.set i (none, time)) with
      | some w => .done w.2 started
      | none => .panicked := by
  unfold assignPhase
  rw [h, if_pos hc]

theorem assignPhase_tick {base : ℕ} {R : Graph} {ws : List Worker}
    {started : List ℕ} {i time : ℕ}
    (h : ((externalsIncoming R).filter (fun s => s ∉ started)).min = none)
    (hc : R.nodes.card ≠ 0) :
    assignPhase base ⟨R, ws, started⟩ i time =
      .next ⟨R, ws.set i (none, time + 1), started⟩ := by
  unfold assignPhase
  rw [h, if_neg hc]

theorem schedRun_succ (base fuel : ℕ) (S : SchedState) :
    schedRun base (fuel + 1) S =
      match schedStep base S with
      | .panicked => .panicked
      | .done t st => .done t st
      | .next S2 => schedRun base fuel S2 := rfl

theorem schedRun_next {base fuel : ℕ} {S S2 : SchedState}
    (h : schedStep base S = .next S2) :
    schedRun base (fuel + 1) S = schedRun base fuel S2 := by
  rw [schedRun_succ, h]

theorem schedRun_done {base fuel t : ℕ} {S : SchedState} {st : List ℕ}
    (h : schedStep base S = .done t st) :
    schedRun base (fuel + 1) S = .done t st := by
  rw [schedRun_succ, h]

/-- A lone worker whose job is ready: one iteration retires the job; if the
graph is then exhausted the loop breaks with the worker's clock. -/
theorem schedStep_single_stop {base t s : ℕ} {R : Graph} {started : List ℕ}
    (hs : s ∈ externalsIncoming R)
    (hmin : ((externalsIncoming (removeNode R s)).filter (fun x => x ∉ started)).min = none)
    (hc : (removeNode R s).nodes.card = 0) :
    schedStep base ⟨R, [(some s, t)], started⟩ = .done t started := by
  rw [schedStep_single hs]
  rw [assignPhase_stop hmin hc]
  rfl

/-- A lone worker whose job is ready: one iteration retires the job and
assigns the least ready unstarted step of the rest. -/
theorem schedStep_single_assign {base t s m : ℕ} {R : Graph} {started : List ℕ}
    (hs : s ∈ externalsIncoming R)
    (hmin : ((externalsIncoming (removeNode R s)).filter (fun x => x ∉ started)).min = some m) :
    schedStep base ⟨R, [(some s, t)], started⟩ =
      .next ⟨removeNode R s, [(some m, t + Step.duration m base)], m :: started⟩ := by
  rw [schedStep_single hs]
  rw [assignPhase_assign hmin]
  rfl

/-- A single worker that currently holds a ready job finishes the whole
remaining graph in `card` further iterations, accumulating exactly the sum
of the durations of all remaining steps. -/
theorem sched_single : ∀ (k : ℕ) (R : Graph) (base t s : ℕ) (started : List ℕ),
    R.nodes.card = k → R.WF → Acyclic R → s ∈ externalsIncoming R →
    (∀ x ∈ started, x ∈ R.nodes → x = s) →
    ∃ st, schedRun base k ⟨R, [(some s, t)], started⟩ =
      SchedOut.done (t + ∑ n ∈ R.nodes.erase s, Step.duration n base) st := by
  intro k
  induction k using Nat.strong_induction_on with
  | _ k ih =>
    intro R base t s started hk hwf hac hs hstarted
    have hsn : s ∈ R.nodes := externalsIncoming_subset R hs
    have hkpos : 0 < k := hk ▸ Finset.card_pos.mpr ⟨s, hsn⟩
    obtain ⟨k2, rfl⟩ : ∃ k2, k = k2 + 1 := ⟨k - 1, by omega⟩
    have hcard2 : (removeNode R s).nodes.card = k2 := by
      have := Finset.card_erase_of_mem hsn
      rw [removeNode_nodes, this, hk]
      omega
    have hgone : ∀ x ∈ started, x ∉ (removeNode R s).nodes := by
      intro x hx hmem
      rw [removeNode_nodes] at hmem
      obtain ⟨hne, hmem2⟩ := Finset.mem_erase.mp hmem
      exact hne (hstarted x hx hmem2)
    have hfilter : ((externalsIncoming (removeNode R s)).filter
        (fun x => x ∉ started)) = externalsIncoming (removeNode R s) :=
      filter_started_all hgone
    rcases Nat.eq_zero_or_pos k2 with hz | hpos
    · have hmin : ((externalsIncoming (removeNode R s)).filter
          (fun x => x ∉ started)).min = none := by
        rw [hfilter, externalsIncoming_of_empty (by omega), Finset.min_empty]
        rfl
      have hrun : schedRun base (k2 + 1) ⟨R, [(some s, t)], started⟩ =
          SchedOut.done t started :=
        schedRun_done (schedStep_single_stop hs hmin (by omega))
      have hsum : t + ∑ n ∈ R.nodes.erase s, Step.duration n base = t := by
        have herase : (R.nodes.erase s) = ∅ := by
          have h2 := hcard2
          rw [removeNode_nodes] at h2
          exact Finset.card_eq_zero.mp (by omega)
        rw [herase, Finset.sum_empty]
        omega
      exact ⟨started, hrun.trans (by rw [hsum])⟩
    · have hwf2 : (removeNode R s).WF := wf_removeNode hwf s
      have hac2 : Acyclic (removeNode R s) := acyclic_removeNode hac s
      have hne2 : (removeNode R s).nodes.Nonempty := Finset.card_pos.mp (by omega)
      obtain ⟨m, hmin⟩ := part1_min_some hwf2 hac2 hne2
      have hmin2 : ((externalsIncoming (removeNode R s)).filter
          (fun x => x ∉ started)).min = some m := hfilter.symm ▸ hmin
      have hm : m ∈ externalsIncoming (removeNode R s) := Finset.mem_of_min hmin
      have hmn : m ∈ (removeNode R s).nodes := externalsIncoming_subset _ hm
      have hstarted2 : ∀ x ∈ m :: started, x ∈ (removeNode R s).nodes → x = m := by
        intro x hx hmem
        rcases List.mem_cons.mp hx with rfl | hx2
        · rfl
        · exact absurd hmem (hgone x hx2)
      obtain ⟨st, hst⟩ := ih k2 (by omega) (removeNode R s) base
        (t + Step.duration m base) m (m :: started) hcard2 hwf2 hac2 hm hstarted2
      have hrun : schedRun base (k2 + 1) ⟨R, [(some s, t)], started⟩ =
          schedRun base k2 ⟨removeNode R s,
            [(some m, t + Step.duration m base)], m :: started⟩ :=
        schedRun_next (schedStep_single_assign hs hmin2)
      have harith : t + Step.duration m base +
          ∑ n ∈ (removeNode R s).nodes.erase m, Step.duration n base =
          t + ∑ n ∈ R.nodes.erase s, Step.duration n base := by
        have hsum : Step.duration m base +
            ∑ n ∈ (removeNode R s).nodes.erase m, Step.duration n base =
            ∑ n ∈ (removeNode R s).nodes, Step.duration n base :=
          Finset.add_sum_erase _ (fun n => Step.duration n base) hmn
        show t + Step.duration m base +
            ∑ n ∈ (removeNode R s).nodes.erase m, Step.duration n base =
            t + ∑ n ∈ (removeNode R s).nodes, Step.duration n base
        omega
      exact ⟨st, hrun.trans (hst.trans (by rw [harith]))⟩

theorem schedStep_initial_single (base : ℕ) (G : Graph) :
    schedStep base ⟨G, List.replicate 1 (none, 0), []⟩ =
      assignPhase base ⟨G, List.replicate 1 (none, 0), []⟩ 0 0 := rfl

/-- With one worker and any base duration, the scheduler of a well-formed
acyclic graph halts (in `card + 1` iterations) with exactly the sum of all
step durations: no parallelism is possible. -/
theorem sched_single_total (G : Graph) (base : ℕ) (hwf : G.WF) (hac : Acyclic G) :
    ∃ st, part2_internal G 1 base (G.nodes.card + 1) =
      SchedOut.done (∑ n ∈ G.nodes, Step.duration n base) st := by
  have hfilter : ((externalsIncoming G).filter (fun x => x ∉ ([] : List ℕ))) =
      externalsIncoming G := filter_started_all (by intro x hx; simp at hx)
  show ∃ st, schedRun base (G.nodes.card + 1) ⟨G, List.replicate 1 (none, 0), []⟩ =
      SchedOut.done (∑ n ∈ G.nodes, Step.duration n base) st
  rcases Finset.eq_empty_or_nonempty G.nodes with hemp | hne
  · have h0 : G.nodes.card = 0 := by rw [hemp]; rfl
    have hmin : ((externalsIncoming G).filter (fun x => x ∉ ([] : List ℕ))).min = none := by
      rw [hfilter, externalsIncoming_of_empty h0, Finset.min_empty]
      rfl
    have hstep : schedStep base ⟨G, List.replicate 1 (none, 0), []⟩ =
        StepRes.done 0 [] := by
      rw [schedStep_initial_single, assignPhase_stop hmin h0]
      rfl
    have hrun : schedRun base (G.nodes.card + 1) ⟨G, List.replicate 1 (none, 0), []⟩ =
        SchedOut.done 0 [] := schedRun_done hstep
    exact ⟨[], hrun.trans (by rw [hemp, Finset.sum_empty])⟩
  · obtain ⟨m, hmin⟩ := part1_min_some hwf hac hne
    have hmin2 : ((externalsIncoming G).filter (fun x => x ∉ ([] : List ℕ))).min = some m :=
      hfilter.symm ▸ hmin
    have hm : m ∈ externalsIncoming G := Finset.mem_of_min hmin
    have hmn : m ∈ G.nodes := externalsIncoming_subset G hm
    have hstep : schedStep base ⟨G, List.replicate 1 (none, 0), []⟩ =
        .next ⟨G, [(some m, 0 + Step.duration m base)], [m]⟩ := by
      rw [schedStep_initial_single, assignPhase_assign hmin2]
      rfl
    have hrun : schedRun base (G.nodes.card + 1) ⟨G, List.replicate 1 (none, 0), []⟩ =
        schedRun base G.nodes.card ⟨G, [(some m, 0 + Step.duration m base)], [m]⟩ :=
      schedRun_next hstep
    obtain ⟨st, hst⟩ := sched_single G.nodes.card G base (0 + Step.duration m base) m [m]
      rfl hwf hac hm
      (by intro x hx _; simpa using hx)
    have harith : 0 + Step.duration m base +
        ∑ n ∈ G.nodes.erase m, Step.duration n base =
        ∑ n ∈ G.nodes, Step.duration n base := by
      have hsum : Step.duration m base + ∑ n ∈ G.nodes.erase m, Step.duration n base =
          ∑ n ∈ G.nodes, Step.duration n base := Finset.add_sum_erase _ (fun n => Step.duration n base) hmn
      omega
    exact ⟨st, hrun.trans (hst.trans (by rw [harith]))⟩

/-! ## Invariants of the multi-worker scheduler (C5, C6)

The rest of the development analyses arbitrary runs of `part2_internal`.
The retired steps of a state are recovered as `G.nodes \ S.remaining.nodes`
(every removed node was a started job). -/

/-- Sum of step durations over a set of steps. -/
def durSum (base : ℕ) (s : Finset ℕ) : ℕ := ∑ n ∈ s, Step.duration n base

theorem one_le_duration (s base : ℕ) : 1 ≤ Step.duration s base := by
  unfold Step.duration
  omega

theorem durSum_mono {base : ℕ} {s t : Finset ℕ} (h : s ⊆ t) :
    durSum base s ≤ durSum base t :=
  Finset.sum_le_sum_of_subset h

theorem durSum_insert {base : ℕ} {s : Finset ℕ} {a : ℕ} (h : a ∉ s) :
    durSum base (insert a s) = Step.duration a base + durSum base s :=
  Finset.sum_insert h

/-- A sequence of steps forming a dependency chain inside a graph. -/
def ChainIn (G : Graph) (c : List ℕ) : Prop :=
  (∀ x ∈ c, x ∈ G.nodes) ∧ c.Chain' (edgeRel G)

/-- Duration-weighted length of a chain. -/
def chainW (base : ℕ) (c : List ℕ) : ℕ :=
  (c.map (fun s => Step.duration s base)).sum

theorem chainIn_tail {G : Graph} {a : ℕ} {c : List ℕ}
    (h : ChainIn G (a :: c)) : ChainIn G c := by
  obtain ⟨hmem, hch⟩ := h
  exact ⟨fun x hx => hmem x (List.mem_cons_of_mem _ hx), hch.tail⟩

theorem chainIn_removeNode {G : Graph} {c : List ℕ} {n : ℕ}
    (h : ChainIn G c) (hn : ∀ x ∈ c, x ≠ n) : ChainIn (removeNode G n) c := by
  obtain ⟨hmem, hch⟩ := h
  refine ⟨?_, ?_⟩
  · intro x hx
    rw [removeNode_nodes]
    exact Finset.mem_erase.mpr ⟨hn x hx, hmem x hx⟩
  · clear hmem
    induction c with
    | nil => exact List.chain'_nil
    | cons a c ih =>
      match c with
      | [] => exact List.chain'_singleton a
      | b :: c2 =>
        rw [List.chain'_cons] at hch ⊢
        refine ⟨?_, ih (fun x hx => hn x (List.mem_cons_of_mem _ hx)) hch.2⟩
        exact mem_removeNode_edges.mpr ⟨hch.1, hn a (List.mem_cons_self _ _),
          hn b (List.mem_cons_of_mem _ (List.mem_cons_self _ _))⟩

/-- Every element of a chain's tail has an incoming edge, so is not ready. -/
theorem chain_tail_not_external {G : Graph} : ∀ {hd : ℕ} {tl : List ℕ},
    ChainIn G (hd :: tl) → ∀ x ∈ tl, x ∉ externalsIncoming G := by
  intro hd tl
  induction tl generalizing hd with
  | nil => intro _ x hx; simp at hx
  | cons b rest ih =>
    intro h x hx hext
    have hedge : (hd, b) ∈ G.edges := (List.chain'_cons.mp h.2).1
    rcases List.mem_cons.mp hx with rfl | hx2
    · exact (mem_externalsIncoming.mp hext).2 (hd, x) hedge rfl
    · exact ih ⟨fun y hy => h.1 y (List.mem_cons_of_mem _ hy),
        (List.chain'_cons.mp h.2).2⟩ x hx2 hext

/-- A ready node stays ready when a different node is removed. -/
theorem externals_removeNode {G : Graph} {a n : ℕ}
    (h : a ∈ externalsIncoming G) (hne : a ≠ n) :
    a ∈ externalsIncoming (removeNode G n) := by
  obtain ⟨hmem, hin⟩ := mem_externalsIncoming.mp h
  refine mem_externalsIncoming.mpr ⟨?_, ?_⟩
  · rw [removeNode_nodes]
    exact Finset.mem_erase.mpr ⟨hne, hmem⟩
  · intro e he
    exact hin e (mem_removeNode_edges.mp he).1

/-- Combined selection key: the comparator of `part2_internal` orders
workers by `(clock, busy-before-idle)`, which (the second component being a
single bit) is the numeric order of `2·clock + idleBit`. -/
def wkey (w : Worker) : ℕ := 2 * w.2 + (if w.1.isSome then 0 else 1)

theorem workerLtb_iff_wkey (a b : Worker) :
    workerLtb a b = true ↔ wkey a < wkey b := by
  obtain ⟨ja, ta⟩ := a
  obtain ⟨jb, tb⟩ := b
  unfold workerLtb wkey
  cases ja <;> cases jb <;> simp <;> omega

theorem wkey_clock_le {a b : Worker} (h : wkey a ≤ wkey b) : a.2 ≤ b.2 := by
  unfold wkey at h
  split at h <;> split at h <;> omega

theorem wkey_busy_pref {a b : Worker} (h : wkey a ≤ wkey b) (hc : a.2 = b.2)
    (hb : b.1.isSome = true) : a.1.isSome = true := by
  by_cases ha : a.1.isSome = true
  · exact ha
  · exfalso
    unfold wkey at h
    rw [hb, if_pos rfl, if_neg ha] at h
    omega

/-- The `min_by` fold returns a least element for the selection key. -/
theorem selectAux_min : ∀ (ws : List Worker) (i bi : ℕ) (bw : Worker),
    ∀ x ∈ bw :: ws, wkey (selectAux ws i bi bw).2 ≤ wkey x := by
  intro ws
  induction ws with
  | nil =>
    intro i bi bw x hx
    rcases List.mem_cons.mp hx with rfl | h
    · exact le_refl _
    · simp at h
  | cons w rest ih =>
    intro i bi bw x hx
    simp only [selectAux]
    by_cases h : workerLtb w bw = true
    · rw [if_pos h]
      rw [workerLtb_iff_wkey] at h
      rcases List.mem_cons.mp hx with heq | hx2
      · have h1 := ih (i + 1) i w w (List.mem_cons_self _ _)
        rw [heq]
        omega
      · exact ih (i + 1) i w x hx2
    · rw [if_neg h]
      have h2 : ¬ (wkey w < wkey bw) := by
        rw [← workerLtb_iff_wkey]
        exact h
      rcases List.mem_cons.mp hx with heq | hx2
      · rw [heq]
        exact ih (i + 1) bi bw bw (List.mem_cons_self _ _)
      · rcases List.mem_cons.mp hx2 with heq | hx3
        · have h1 := ih (i + 1) bi bw bw (List.mem_cons_self _ _)
          rw [heq]
          omega
        · exact ih (i + 1) bi bw x (List.mem_cons_of_mem _ hx3)

/-- The index produced by the `min_by` fold addresses the worker it returns. -/
theorem selectAux_get : ∀ (ws : List Worker) (i bi : ℕ) (bw : Worker) (full : List Worker),
    full.get? bi = some bw → (∀ j, ws.get? j = full.get? (i + j)) →
    full.get? (selectAux ws i bi bw).1 = some (selectAux ws i bi bw).2 := by
  intro ws
  induction ws with
  | nil => intro i bi bw full hb _; exact hb
  | cons w rest ih =>
    intro i bi bw full hb hall
    simp only [selectAux]
    by_cases h : workerLtb w bw = true
    · rw [if_pos h]
      refine ih (i + 1) i w full ?_ ?_
      · have h0 := hall 0
        simpa using h0.symm
      · intro j
        have hj := hall (j + 1)
        rw [List.get?_cons_succ] at hj
        rw [hj]
        congr 1
        omega
    · rw [if_neg h]
      refine ih (i + 1) bi bw full hb ?_
      intro j
      have hj := hall (j + 1)
      rw [List.get?_cons_succ] at hj
      rw [hj]
      congr 1
      omega

/-- Specification of `selectWorker`: the returned index addresses the
returned worker, which is minimal for the selection key. -/
theorem selectWorker_spec {ws : List Worker} {i : ℕ} {w : Worker}
    (h : selectWorker ws = some (i, w)) :
    ws.get? i = some w ∧ ∀ x ∈ ws, wkey w ≤ wkey x := by
  match ws with
  | [] => simp [selectWorker] at h
  | w0 :: rest =>
    simp only [selectWorker, Option.some.injEq] at h
    constructor
    · have hg := selectAux_get rest 1 0 w0 (w0 :: rest) (by simp)
        (by intro j; rw [Nat.add_comm 1 j]; rfl)
      rw [h] at hg
      exact hg
    · intro x hx
      have hm := selectAux_min rest 1 0 w0 x hx
      rw [h] at hm
      exact hm

theorem selectWorker_of_ne {ws : List Worker} (h : ws ≠ []) :
    ∃ i w, selectWorker ws = some (i, w) := by
  match ws with
  | [] => exact absurd rfl h
  | w0 :: rest => exact ⟨(selectAux rest 1 0 w0).1, (selectAux rest 1 0 w0).2, rfl⟩

theorem workerPairLtb_none (a b : ℕ) :
    workerPairLtb ((none : Option ℕ), a) (none, b) = decide (a < b) := by
  unfold workerPairLtb optLtb
  simp

/-- On an all-idle worker list the lexicographic `max` fold dominates every
clock. -/
theorem foldl_max_none : ∀ (ws : List Worker) (acc : Worker), acc.1 = none →
    (∀ x ∈ ws, x.1 = none) →
    acc.2 ≤ (ws.foldl (fun a x => if workerPairLtb x a then a else x) acc).2 ∧
    ∀ x ∈ ws, x.2 ≤ (ws.foldl (fun a x => if workerPairLtb x a then a else x) acc).2 := by
  intro ws
  induction ws with
  | nil =>
    intro acc _ _
    exact ⟨le_refl _, by intro x hx; simp at hx⟩
  | cons x rest ih =>
    intro acc hacc hall
    obtain ⟨ja, ta⟩ := acc
    obtain ⟨jx, tx⟩ := x
    have hja : ja = none := hacc
    have hjx : jx = none := hall _ (List.mem_cons_self _ _)
    subst hja hjx
    simp only [List.foldl_cons, workerPairLtb_none]
    by_cases hlt : tx < ta
    · rw [if_pos (by simpa using hlt)]
      obtain ⟨h1, h2⟩ := ih (none, ta) rfl
        (fun y hy => hall y (List.mem_cons_of_mem _ hy))
      refine ⟨h1, ?_⟩
      intro y hy
      rcases List.mem_cons.mp hy with rfl | hy2
      · exact le_trans (le_of_lt hlt) h1
      · exact h2 y hy2
    · rw [if_neg (by simpa using hlt)]
      obtain ⟨h1, h2⟩ := ih (none, tx) rfl
        (fun y hy => hall y (List.mem_cons_of_mem _ hy))
      refine ⟨le_trans (by omega) h1, ?_⟩
      intro y hy
      rcases List.mem_cons.mp hy with rfl | hy2
      · exact h1
      · exact h2 y hy2

/-- On an all-idle list, the break value `workers.into_iter().max()` is an
upper bound of every worker's clock. -/
theorem maxWorker_none_spec {ws : List Worker} {w : Worker}
    (h : maxWorker ws = some w) (hall : ∀ x ∈ ws, x.1 = none) :
    ∀ x ∈ ws, x.2 ≤ w.2 := by
  match ws with
  | [] => simp [maxWorker] at h
  | w0 :: rest =>
    simp only [maxWorker, Option.some.injEq] at h
    obtain ⟨h1, h2⟩ := foldl_max_none rest w0 (hall _ (List.mem_cons_self _ _))
      (fun y hy => hall y (List.mem_cons_of_mem _ hy))
    intro x hx
    rcases List.mem_cons.mp hx with rfl | hx2
    · rw [← h]; exact h1
    · rw [← h]; exact h2 x hx2

/-- The `max` fold returns an element of the list. -/
theorem foldl_max_mem : ∀ (ws : List Worker) (acc : Worker),
    (ws.foldl (fun a x => if workerPairLtb x a then a else x) acc) = acc ∨
    (ws.foldl (fun a x => if workerPairLtb x a then a else x) acc) ∈ ws := by
  intro ws
  induction ws with
  | nil => intro acc; exact Or.inl rfl
  | cons x rest ih =>
    intro acc
    simp only [List.foldl_cons]
    by_cases hlt : workerPairLtb x acc = true
    · rw [if_pos hlt]
      rcases ih acc with h | h
      · exact Or.inl h
      · exact Or.inr (List.mem_cons_of_mem _ h)
    · rw [if_neg hlt]
      rcases ih x with h | h
      · exact Or.inr (by rw [h]; exact List.mem_cons_self _ _)
      · exact Or.inr (List.mem_cons_of_mem _ h)

theorem maxWorker_mem {ws : List Worker} {w : Worker}
    (h : maxWorker ws = some w) : w ∈ ws := by
  match ws with
  | [] => simp [maxWorker] at h
  | w0 :: rest =>
    simp only [maxWorker, Option.some.injEq] at h
    rcases foldl_max_mem rest w0 with h2 | h2
    · rw [← h, h2]; exact List.mem_cons_self _ _
    · rw [← h]; exact List.mem_cons_of_mem _ h2

theorem maxWorker_of_ne {ws : List Worker} (h : ws ≠ []) :
    ∃ w, maxWorker ws = some w := by
  match ws with
  | [] => exact absurd rfl h
  | w0 :: rest => exact ⟨_, rfl⟩

/-- The inductive invariant of `part2_internal`'s loop, over the original
graph `G`. Clock bounds: `k1` (every clock is at most the total started
work), `k2` (a busy worker's clock is at most the retired work plus its own
job), `j1` (an idle clock exceeds no clock by more than one), `j3` (an idle
clock is close to the retired work or dominated by every busy clock), `k10`
(while an unstarted ready step exists, idle clocks are at most the retired
work). -/
structure SchedInv (G : Graph) (base : ℕ) (S : SchedState) : Prop where
  wf : S.remaining.WF
  ac : Acyclic S.remaining
  sub : S.remaining.nodes ⊆ G.nodes
  snodup : S.started.Nodup
  ssub : ∀ x ∈ S.started, x ∈ G.nodes
  jdisj : ∀ j k (hj : j < S.workers.length) (hk : k < S.workers.length), j ≠ k →
    ∀ x : ℕ, (S.workers[j]).1 = some x → (S.workers[k]).1 ≠ some x
  jready : ∀ j (hj : j < S.workers.length), ∀ s : ℕ,
    (S.workers[j]).1 = some s → s ∈ externalsIncoming S.remaining
  jstarted : ∀ j (hj : j < S.workers.length), ∀ s : ℕ,
    (S.workers[j]).1 = some s → s ∈ S.started
  sback : ∀ s ∈ S.remaining.nodes, s ∈ S.started →
    ∃ j, ∃ hj : j < S.workers.length, (S.workers[j]).1 = some s
  dsub : ∀ n ∈ G.nodes, n ∉ S.remaining.nodes → n ∈ S.started
  k1 : ∀ j (hj : j < S.workers.length),
    (S.workers[j]).2 ≤ durSum base S.started.toFinset
  k2 : ∀ j (hj : j < S.workers.length), ∀ s : ℕ, (S.workers[j]).1 = some s →
    (S.workers[j]).2 ≤ durSum base (G.nodes \ S.remaining.nodes) + Step.duration s base
  j1 : ∀ j (hj : j < S.workers.length), (S.workers[j]).1 = none →
    ∀ k (hk : k < S.workers.length), (S.workers[j]).2 ≤ (S.workers[k]).2 + 1
  j3 : ∀ j (hj : j < S.workers.length), (S.workers[j]).1 = none →
    (S.workers[j]).2 ≤ durSum base (G.nodes \ S.remaining.nodes) + 1 ∨
    ((∃ k, ∃ hk : k < S.workers.length, ((S.workers[k]).1).isSome = true) ∧
     ∀ k (hk : k < S.workers.length), ((S.workers[k]).1).isSome = true →
       (S.workers[j]).2 ≤ (S.workers[k]).2)
  k10 : ((externalsIncoming S.remaining).filter (fun s => s ∉ S.started)).Nonempty →
    ∀ j (hj : j < S.workers.length), (S.workers[j]).1 = none →
      (S.workers[j]).2 ≤ durSum base (G.nodes \ S.remaining.nodes)
  wne : S.workers ≠ []

/-- The initial state of `part2_internal` satisfies the invariant. -/
theorem schedInv_init (G : Graph) (base N : ℕ) (hwf : G.WF) (hac : Acyclic G)
    (hN : 1 ≤ N) :
    SchedInv G base ⟨G, List.replicate N ((none : Option ℕ), 0), []⟩ := by
  have hrep : ∀ j (hj : j < (List.replicate N ((none : Option ℕ), 0)).length),
      (List.replicate N ((none : Option ℕ), 0))[j] = (none, 0) := by
    intro j hj
    exact List.getElem_replicate ..
  refine ⟨hwf, hac, le_refl _, List.nodup_nil, ?_, ?_, ?_, ?_, ?_, ?_, ?_, ?_, ?_, ?_, ?_, ?_⟩
  · intro x hx; simp at hx
  · intro j k hj hk _ x hx
    rw [hrep j hj] at hx
    exact Option.noConfusion hx
  · intro j hj s hs
    rw [hrep j hj] at hs
    exact absurd hs (Option.noConfusion)
  · intro j hj s hs
    rw [hrep j hj] at hs
    exact absurd hs (Option.noConfusion)
  · intro s _ hs
    simp at hs
  · intro n _ hn
    exact absurd (by assumption) hn
  · intro j hj
    rw [hrep j hj]
    exact Nat.zero_le _
  · intro j hj s hs
    rw [hrep j hj] at hs
    exact absurd hs (Option.noConfusion)
  · intro j hj _ k hk
    rw [hrep j hj]
    exact Nat.zero_le _
  · intro j hj _
    left
    rw [hrep j hj]
    exact Nat.zero_le _
  · intro _ j hj _
    rw [hrep j hj]
    have : G.nodes \ G.nodes = ∅ := Finset.sdiff_self G.nodes
    rw [this]
    simp [durSum]
  · intro h
    have := congrArg List.length h
    simp at this
    omega

/-- One iteration whose selected worker holds job `s` (which must be a ready
node, otherwise the source panics): retire `s` and move to the assignment
phase on the reduced graph. -/
theorem schedStep_retire {base : ℕ} {R : Graph} {ws : List Worker}
    {started : List ℕ} {i time s : ℕ}
    (hsel : selectWorker ws = some (i, (some s, time)))
    (hready : s ∈ externalsIncoming R) :
    schedStep base ⟨R, ws, started⟩ =
      assignPhase base ⟨removeNode R s, ws, started⟩ i time := by
  unfold schedStep
  rw [hsel]
  show (if s ∈ externalsIncoming R
    then assignPhase base ⟨removeNode R s, ws, started⟩ i time
    else .panicked) = _
  rw [if_pos hready]

/-- One iteration whose selected worker is idle: straight to the assignment
phase on the unchanged graph. -/
theorem schedStep_idle {base : ℕ} {R : Graph} {ws : List Worker}
    {started : List ℕ} {i time : ℕ}
    (hsel : selectWorker ws = some (i, (none, time))) :
    schedStep base ⟨R, ws, started⟩ = assignPhase base ⟨R, ws, started⟩ i time := by
  unfold schedStep
  rw [hsel]

theorem selectWorker_elem {ws : List Worker} {i : ℕ} {w : Worker}
    (h : selectWorker ws = some (i, w)) :
    ∃ hi : i < ws.length, ws[i] = w := by
  obtain ⟨hget, _⟩ := selectWorker_spec h
  rw [List.get?_eq_some] at hget
  obtain ⟨hi, he⟩ := hget
  exact ⟨hi, he⟩

/-- The selected worker's clock is the minimum clock. -/
theorem sel_time_le {ws : List Worker} {i : ℕ} {jb : Option ℕ} {time : ℕ}
    (h : selectWorker ws = some (i, (jb, time))) :
    ∀ k (hk : k < ws.length), time ≤ (ws[k]).2 := by
  intro k hk
  exact wkey_clock_le ((selectWorker_spec h).2 (ws[k]) (List.getElem_mem hk))

/-- If an idle worker is selected, every busy worker's clock is strictly
above the selected clock (the comparator prefers busy workers on ties). -/
theorem sel_idle_strict {ws : List Worker} {i time : ℕ}
    (h : selectWorker ws = some (i, (none, time))) :
    ∀ k (hk : k < ws.length), ((ws[k]).1).isSome = true → time < (ws[k]).2 := by
  intro k hk hbusy
  have hm := (selectWorker_spec h).2 (ws[k]) (List.getElem_mem hk)
  have hle : time ≤ (ws[k]).2 := wkey_clock_le hm
  rcases lt_or_eq_of_le hle with hlt | heq
  · exact hlt
  · exact absurd (wkey_busy_pref hm heq hbusy) (by simp)

/-- Retiring job `s` enlarges the retired set by exactly `s`. -/
theorem done_set_retire {G R : Graph} {s : ℕ} (hsub : R.nodes ⊆ G.nodes)
    (hs : s ∈ R.nodes) :
    G.nodes \ (removeNode R s).nodes = insert s (G.nodes \ R.nodes) := by
  rw [removeNode_nodes]
  apply Finset.ext
  intro n
  simp only [Finset.mem_sdiff, Finset.mem_erase, Finset.mem_insert]
  constructor
  · rintro ⟨hG, hne⟩
    by_cases h : n = s
    · exact Or.inl h
    · exact Or.inr ⟨hG, fun hR => hne ⟨h, hR⟩⟩
  · rintro (rfl | ⟨hG, hnR⟩)
    · exact ⟨hsub hs, fun h => h.1 rfl⟩
    · exact ⟨hG, fun h => hnR h.2⟩

/-- Invariant preservation: iteration retiring `s` and assigning `m`. -/
theorem schedInv_retire_assign {G : Graph} {base : ℕ} {R : Graph} {ws : List Worker}
    {started : List ℕ} {i time s m : ℕ}
    (hInv : SchedInv G base ⟨R, ws, started⟩)
    (hsel : selectWorker ws = some (i, (some s, time)))
    (hmin : ((externalsIncoming (removeNode R s)).filter (fun x => x ∉ started)).min = some m) :
    schedStep base ⟨R, ws, started⟩ =
      .next ⟨removeNode R s, ws.set i (some m, time + Step.duration m base), m :: started⟩ ∧
    SchedInv G base ⟨removeNode R s,
      ws.set i (some m, time + Step.duration m base), m :: started⟩ := by
  obtain ⟨hwf0, hac0, hsub0, hsnodup0, hssub0, hjdisj0, hjready0, hjstarted0, hsback0,
    hdsub0, hk10, hk20, hj10, hj30, hk100, hwne0⟩ := hInv
  dsimp only at hwf0 hac0 hsub0 hsnodup0 hssub0 hjdisj0 hjready0 hjstarted0 hsback0 hdsub0 hk10 hk20 hj10 hj30 hk100 hwne0
  obtain ⟨hi, hgi⟩ := selectWorker_elem hsel
  have hji : (ws[i]).1 = some s := by rw [hgi]
  have hti : (ws[i]).2 = time := by rw [hgi]
  have hs_ext : s ∈ externalsIncoming R := hjready0 i hi s hji
  have hs_started : s ∈ started := hjstarted0 i hi s hji
  have hs_node : s ∈ R.nodes := externalsIncoming_subset R hs_ext
  have hm_filter : m ∈ (externalsIncoming (removeNode R s)).filter (fun x => x ∉ started) :=
    Finset.mem_of_min hmin
  have hm_ext : m ∈ externalsIncoming (removeNode R s) := (Finset.mem_filter.mp hm_filter).1
  have hm_ns : m ∉ started := (Finset.mem_filter.mp hm_filter).2
  have hm_nodeR2 : m ∈ (removeNode R s).nodes := externalsIncoming_subset _ hm_ext
  have hm_nodeR : m ∈ R.nodes := by
    rw [removeNode_nodes] at hm_nodeR2
    exact Finset.mem_of_mem_erase hm_nodeR2
  have hm_G : m ∈ G.nodes := hsub0 hm_nodeR
  have hms : m ≠ s := by
    rw [removeNode_nodes] at hm_nodeR2
    exact (Finset.mem_erase.mp hm_nodeR2).1
  have hdone : G.nodes \ (removeNode R s).nodes = insert s (G.nodes \ R.nodes) :=
    done_set_retire hsub0 hs_node
  have hsnd : s ∉ G.nodes \ R.nodes := fun h => (Finset.mem_sdiff.mp h).2 hs_node
  have hsum_done : durSum base (G.nodes \ (removeNode R s).nodes) =
      Step.duration s base + durSum base (G.nodes \ R.nodes) := by
    rw [hdone, durSum_insert hsnd]
  have k2i : time ≤ durSum base (G.nodes \ R.nodes) + Step.duration s base := by
    have := hk20 i hi s hji
    rw [hti] at this
    exact this
  have k2i' : time ≤ durSum base (G.nodes \ (removeNode R s).nodes) := by omega
  have hstep : schedStep base ⟨R, ws, started⟩ =
      .next ⟨removeNode R s, ws.set i (some m, time + Step.duration m base), m :: started⟩ :=
    (schedStep_retire hsel hs_ext).trans (assignPhase_assign hmin)
  have hmtf : m ∉ started.toFinset := by
    rw [List.mem_toFinset]
    exact hm_ns
  have hstf : (m :: started).toFinset = insert m started.toFinset := by
    rw [List.toFinset_cons]
  have hdsub2 : ∀ n ∈ G.nodes, n ∉ (removeNode R s).nodes → n ∈ m :: started := by
    intro n hG hn
    rw [removeNode_nodes] at hn
    by_cases hns : n = s
    · rw [hns]
      exact List.mem_cons_of_mem _ hs_started
    · refine List.mem_cons_of_mem _ (hdsub0 n hG ?_)
      intro hR
      exact hn (Finset.mem_erase.mpr ⟨hns, hR⟩)
  have hDsub : G.nodes \ (removeNode R s).nodes ⊆ (m :: started).toFinset := by
    intro n hn
    obtain ⟨hG, hnR⟩ := Finset.mem_sdiff.mp hn
    rw [List.mem_toFinset]
    exact hdsub2 n hG hnR
  refine ⟨hstep, ?_, ?_, ?_, ?_, ?_, ?_, ?_, ?_, ?_, ?_, ?_, ?_, ?_, ?_, ?_, ?_⟩
  · exact wf_removeNode hwf0 s
  · exact acyclic_removeNode hac0 s
  · exact (show (removeNode R s).nodes ⊆ R.nodes by
      rw [removeNode_nodes]; exact Finset.erase_subset _ _).trans hsub0
  · exact List.nodup_cons.mpr ⟨hm_ns, hsnodup0⟩
  · intro x hx
    rcases List.mem_cons.mp hx with rfl | hx2
    · exact hm_G
    · exact hssub0 x hx2
  · -- jdisj
    dsimp only at *
    intro j k hj hk hjk x hx
    have hj2 : j < ws.length := by simpa using hj
    have hk2 : k < ws.length := by simpa using hk
    by_cases hji2 : j = i
    · subst hji2
      rw [List.getElem_set_self _] at hx
      intro hcontra
      have hki : k ≠ j := fun h => hjk h.symm
      rw [List.getElem_set_ne (fun h => hki h.symm) _] at hcontra
      have hxm : x = m := by
        have h2 : some x = some m := hx.symm
        exact Option.some.inj h2
      rw [hxm] at hcontra
      exact hm_ns (hjstarted0 k hk2 m hcontra)
    · rw [List.getElem_set_ne (fun h => hji2 h.symm) _] at hx
      by_cases hki : k = i
      · subst hki
        rw [List.getElem_set_self _]
        intro hcontra
        have hxm : x = m := Option.some.inj hcontra.symm
        exact hm_ns (by rw [← hxm]; exact hjstarted0 j hj2 x hx)
      · rw [List.getElem_set_ne (fun h => hki h.symm) _]
        exact hjdisj0 j k hj2 hk2 hjk x hx
  · -- jready
    dsimp only at *
    intro j hj x hx
    have hj2 : j < ws.length := by simpa using hj
    by_cases hji2 : j = i
    · subst hji2
      rw [List.getElem_set_self _] at hx
      have : x = m := Option.some.inj hx.symm
      rw [this]
      exact hm_ext
    · rw [List.getElem_set_ne (fun h => hji2 h.symm) _] at hx
      have hxs : x ≠ s := by
        intro h
        rw [h] at hx
        exact hjdisj0 j i hj2 hi hji2 s hx hji
      exact externals_removeNode (hjready0 j hj2 x hx) hxs
  · -- jstarted
    dsimp only at *
    intro j hj x hx
    have hj2 : j < ws.length := by simpa using hj
    by_cases hji2 : j = i
    · subst hji2
      rw [List.getElem_set_self _] at hx
      have : x = m := Option.some.inj hx.symm
      rw [this]
      exact List.mem_cons_self _ _
    · rw [List.getElem_set_ne (fun h => hji2 h.symm) _] at hx
      exact List.mem_cons_of_mem _ (hjstarted0 j hj2 x hx)
  · -- sback
    dsimp only at *
    intro x hxR hxs
    by_cases hxm : x = m
    · refine ⟨i, by simpa using hi, ?_⟩
      rw [hxm, List.getElem_set_self _]
    · rcases List.mem_cons.mp hxs with h | hxs2
      · exact absurd h hxm
      · have hxRn : x ∈ R.nodes := by
          rw [removeNode_nodes] at hxR
          exact Finset.mem_of_mem_erase hxR
        obtain ⟨j, hj, hjx⟩ := hsback0 x hxRn hxs2
        have hxns : x ≠ s := by
          rw [removeNode_nodes] at hxR
          exact (Finset.mem_erase.mp hxR).1
        have hjne : j ≠ i := by
          intro h
          subst h
          rw [hji] at hjx
          exact hxns (Option.some.inj hjx).symm
        refine ⟨j, by simpa using hj, ?_⟩
        rw [List.getElem_set_ne (fun h => hjne h.symm) _]
        exact hjx
  · -- dsub
    exact hdsub2
  · -- k1
    dsimp only at *
    intro j hj
    have hj2 : j < ws.length := by simpa using hj
    have hsum : durSum base (m :: started).toFinset =
        Step.duration m base + durSum base started.toFinset := by
      rw [hstf, durSum_insert hmtf]
    by_cases hji2 : j = i
    · subst hji2
      rw [List.getElem_set_self _]
      have hmnd : m ∉ G.nodes \ (removeNode R s).nodes := by
        intro h
        exact (Finset.mem_sdiff.mp h).2 hm_nodeR2
      have : durSum base (insert m (G.nodes \ (removeNode R s).nodes)) ≤
          durSum base (m :: started).toFinset := by
        apply durSum_mono
        intro x hx
        rcases Finset.mem_insert.mp hx with rfl | hx2
        · rw [hstf]; exact Finset.mem_insert_self _ _
        · exact hDsub hx2
      rw [durSum_insert hmnd] at this
      show time + Step.duration m base ≤ _
      omega
    · rw [List.getElem_set_ne (fun h => hji2 h.symm) _]
      have := hk10 j hj2
      omega
  · -- k2
    dsimp only at *
    intro j hj x hx
    have hj2 : j < ws.length := by simpa using hj
    by_cases hji2 : j = i
    · subst hji2
      rw [List.getElem_set_self _] at hx ⊢
      have : x = m := Option.some.inj hx.symm
      rw [this]
      show time + Step.duration m base ≤ _
      omega
    · rw [List.getElem_set_ne (fun h => hji2 h.symm) _] at hx ⊢
      have := hk20 j hj2 x hx
      omega
  · -- j1
    dsimp only at *
    intro j hj hidle k hk
    have hj2 : j < ws.length := by simpa using hj
    have hk2 : k < ws.length := by simpa using hk
    have hjne : j ≠ i := by
      intro h
      subst h
      rw [List.getElem_set_self _] at hidle
      exact Option.noConfusion hidle
    rw [List.getElem_set_ne (fun h => hjne h.symm) _] at hidle ⊢
    by_cases hki : k = i
    · subst hki
      rw [List.getElem_set_self _]
      have hx2 := hj10 j hj2 hidle k hi
      rw [hti] at hx2
      show _ ≤ time + Step.duration m base + 1
      omega
    · rw [List.getElem_set_ne (fun h => hki h.symm) _]
      exact hj10 j hj2 hidle k hk2
  · -- j3
    dsimp only at *
    intro j hj hidle
    have hj2 : j < ws.length := by simpa using hj
    have hjne : j ≠ i := by
      intro h
      subst h
      rw [List.getElem_set_self _] at hidle
      exact Option.noConfusion hidle
    rw [List.getElem_set_ne (fun h => hjne h.symm) _] at hidle
    rcases hj30 j hj2 hidle with h1 | ⟨_, hall⟩
    · left
      rw [List.getElem_set_ne (fun h => hjne h.symm) _]
      omega
    · right
      constructor
      · refine ⟨i, by simpa using hi, ?_⟩
        rw [List.getElem_set_self _]
        rfl
      · intro k hk hbusy
        have hk2 : k < ws.length := by simpa using hk
        rw [List.getElem_set_ne (fun h => hjne h.symm) _]
        by_cases hki : k = i
        · subst hki
          rw [List.getElem_set_self _]
          have hx2 := hall k hi (by rw [hji]; rfl)
          rw [hti] at hx2
          show _ ≤ time + Step.duration m base
          omega
        · rw [List.getElem_set_ne (fun h => hki h.symm) _] at hbusy ⊢
          exact hall k hk2 hbusy
  · -- k10
    dsimp only at *
    intro hne2 j hj hidle
    have hj2 : j < ws.length := by simpa using hj
    have hjne : j ≠ i := by
      intro h
      subst h
      rw [List.getElem_set_self _] at hidle
      exact Option.noConfusion hidle
    rw [List.getElem_set_ne (fun h => hjne h.symm) _] at hidle ⊢
    have hds : 1 ≤ Step.duration s base := one_le_duration s base
    rcases hj30 j hj2 hidle with h1 | ⟨_, hall⟩
    · omega
    · have := hall i hi (by rw [hji]; rfl)
      rw [hti] at this
      omega
  · -- wne
    intro h
    have := congrArg List.length h
    rw [List.length_set] at this
    exact hwne0 (List.length_eq_zero.mp (by simpa using this))

/-- Invariant preservation: iteration with an idle selected worker that
assigns `m`. -/
theorem schedInv_idle_assign {G : Graph} {base : ℕ} {R : Graph} {ws : List Worker}
    {started : List ℕ} {i time m : ℕ}
    (hInv : SchedInv G base ⟨R, ws, started⟩)
    (hsel : selectWorker ws = some (i, (none, time)))
    (hmin : ((externalsIncoming R).filter (fun x => x ∉ started)).min = some m) :
    schedStep base ⟨R, ws, started⟩ =
      .next ⟨R, ws.set i (some m, time + Step.duration m base), m :: started⟩ ∧
    SchedInv G base ⟨R, ws.set i (some m, time + Step.duration m base), m :: started⟩ := by
  obtain ⟨hwf0, hac0, hsub0, hsnodup0, hssub0, hjdisj0, hjready0, hjstarted0, hsback0,
    hdsub0, hk10, hk20, hj10, hj30, hk100, hwne0⟩ := hInv
  dsimp only at hwf0 hac0 hsub0 hsnodup0 hssub0 hjdisj0 hjready0 hjstarted0 hsback0 hdsub0 hk10 hk20 hj10 hj30 hk100 hwne0
  obtain ⟨hi, hgi⟩ := selectWorker_elem hsel
  have hji : (ws[i]).1 = none := by rw [hgi]
  have hti : (ws[i]).2 = time := by rw [hgi]
  have hm_filter : m ∈ (externalsIncoming R).filter (fun x => x ∉ started) :=
    Finset.mem_of_min hmin
  have hm_ext : m ∈ externalsIncoming R := (Finset.mem_filter.mp hm_filter).1
  have hm_ns : m ∉ started := (Finset.mem_filter.mp hm_filter).2
  have hm_nodeR : m ∈ R.nodes := externalsIncoming_subset _ hm_ext
  have hm_G : m ∈ G.nodes := hsub0 hm_nodeR
  have hA1 : time ≤ durSum base (G.nodes \ R.nodes) := by
    have := hk100 ⟨m, hm_filter⟩ i hi hji
    rw [hti] at this
    exact this
  have hstep : schedStep base ⟨R, ws, started⟩ =
      .next ⟨R, ws.set i (some m, time + Step.duration m base), m :: started⟩ :=
    (schedStep_idle hsel).trans (assignPhase_assign hmin)
  have hmtf : m ∉ started.toFinset := by
    rw [List.mem_toFinset]
    exact hm_ns
  have hstf : (m :: started).toFinset = insert m started.toFinset := by
    rw [List.toFinset_cons]
  have hDsub : G.nodes \ R.nodes ⊆ (m :: started).toFinset := by
    intro n hn
    obtain ⟨hG, hnR⟩ := Finset.mem_sdiff.mp hn
    rw [List.mem_toFinset]
    exact List.mem_cons_of_mem _ (hdsub0 n hG hnR)
  refine ⟨hstep, ?_, ?_, ?_, ?_, ?_, ?_, ?_, ?_, ?_, ?_, ?_, ?_, ?_, ?_, ?_, ?_⟩
  · exact hwf0
  · exact hac0
  · exact hsub0
  · exact List.nodup_cons.mpr ⟨hm_ns, hsnodup0⟩
  · intro x hx
    rcases List.mem_cons.mp hx with rfl | hx2
    · exact hm_G
    · exact hssub0 x hx2
  · -- jdisj
    dsimp only at *
    intro j k hj hk hjk x hx
    have hj2 : j < ws.length := by simpa using hj
    have hk2 : k < ws.length := by simpa using hk
    by_cases hji2 : j = i
    · subst hji2
      rw [List.getElem_set_self _] at hx
      intro hcontra
      have hki : k ≠ j := fun h => hjk h.symm
      rw [List.getElem_set_ne (fun h => hki h.symm) _] at hcontra
      have hxm : x = m := by
        have h2 : some x = some m := hx.symm
        exact Option.some.inj h2
      rw [hxm] at hcontra
      exact hm_ns (hjstarted0 k hk2 m hcontra)
    · rw [List.getElem_set_ne (fun h => hji2 h.symm) _] at hx
      by_cases hki : k = i
      · subst hki
        rw [List.getElem_set_self _]
        intro hcontra
        have hxm : x = m := Option.some.inj hcontra.symm
        exact hm_ns (by rw [← hxm]; exact hjstarted0 j hj2 x hx)
      · rw [List.getElem_set_ne (fun h => hki h.symm) _]
        exact hjdisj0 j k hj2 hk2 hjk x hx
  · -- jready
    dsimp only at *
    intro j hj x hx
    have hj2 : j < ws.length := by simpa using hj
    by_cases hji2 : j = i
    · subst hji2
      rw [List.getElem_set_self _] at hx
      have : x = m := Option.some.inj hx.symm
      rw [this]
      exact hm_ext
    · rw [List.getElem_set_ne (fun h => hji2 h.symm) _] at hx
      exact hjready0 j hj2 x hx
  · -- jstarted
    dsimp only at *
    intro j hj x hx
    have hj2 : j < ws.length := by simpa using hj
    by_cases hji2 : j = i
    · subst hji2
      rw [List.getElem_set_self _] at hx
      have : x = m := Option.some.inj hx.symm
      rw [this]
      exact List.mem_cons_self _ _
    · rw [List.getElem_set_ne (fun h => hji2 h.symm) _] at hx
      exact List.mem_cons_of_mem _ (hjstarted0 j hj2 x hx)
  · -- sback
    dsimp only at *
    intro x hxR hxs
    by_cases hxm : x = m
    · refine ⟨i, by simpa using hi, ?_⟩
      rw [hxm, List.getElem_set_self _]
    · rcases List.mem_cons.mp hxs with h | hxs2
      · exact absurd h hxm
      · obtain ⟨j, hj, hjx⟩ := hsback0 x hxR hxs2
        have hjne : j ≠ i := by
          intro h
          subst h
          rw [hji] at hjx
          exact Option.noConfusion hjx
        refine ⟨j, by simpa using hj, ?_⟩
        rw [List.getElem_set_ne (fun h => hjne h.symm) _]
        exact hjx
  · -- dsub
    dsimp only at *
    intro n hG hn
    exact List.mem_cons_of_mem _ (hdsub0 n hG hn)
  · -- k1
    dsimp only at *
    intro j hj
    have hj2 : j < ws.length := by simpa using hj
    have hsum : durSum base (m :: started).toFinset =
        Step.duration m base + durSum base started.toFinset := by
      rw [hstf, durSum_insert hmtf]
    by_cases hji2 : j = i
    · subst hji2
      rw [List.getElem_set_self _]
      have hmnd : m ∉ G.nodes \ R.nodes := by
        intro h
        exact (Finset.mem_sdiff.mp h).2 hm_nodeR
      have hle : durSum base (insert m (G.nodes \ R.nodes)) ≤
          durSum base (m :: started).toFinset := by
        apply durSum_mono
        intro x hx
        rcases Finset.mem_insert.mp hx with rfl | hx2
        · rw [hstf]; exact Finset.mem_insert_self _ _
        · exact hDsub hx2
      rw [durSum_insert hmnd] at hle
      show time + Step.duration m base ≤ _
      omega
    · rw [List.getElem_set_ne (fun h => hji2 h.symm) _]
      have := hk10 j hj2
      omega
  · -- k2
    dsimp only at *
    intro j hj x hx
    have hj2 : j < ws.length := by simpa using hj
    by_cases hji2 : j = i
    · subst hji2
      rw [List.getElem_set_self _] at hx ⊢
      have : x = m := Option.some.inj hx.symm
      rw [this]
      show time + Step.duration m base ≤ _
      omega
    · rw [List.getElem_set_ne (fun h => hji2 h.symm) _] at hx ⊢
      exact hk20 j hj2 x hx
  · -- j1
    dsimp only at *
    intro j hj hidle k hk
    have hj2 : j < ws.length := by simpa using hj
    have hk2 : k < ws.length := by simpa using hk
    have hjne : j ≠ i := by
      intro h
      subst h
      rw [List.getElem_set_self _] at hidle
      exact Option.noConfusion hidle
    rw [List.getElem_set_ne (fun h => hjne h.symm) _] at hidle ⊢
    by_cases hki : k = i
    · subst hki
      rw [List.getElem_set_self _]
      have hx2 := hj10 j hj2 hidle k hi
      rw [hti] at hx2
      show _ ≤ time + Step.duration m base + 1
      omega
    · rw [List.getElem_set_ne (fun h => hki h.symm) _]
      exact hj10 j hj2 hidle k hk2
  · -- j3
    dsimp only at *
    intro j hj hidle
    have hj2 : j < ws.length := by simpa using hj
    have hjne : j ≠ i := by
      intro h
      subst h
      rw [List.getElem_set_self _] at hidle
      exact Option.noConfusion hidle
    rw [List.getElem_set_ne (fun h => hjne h.symm) _] at hidle
    left
    rw [List.getElem_set_ne (fun h => hjne h.symm) _]
    have := hk100 ⟨m, hm_filter⟩ j hj2 hidle
    omega
  · -- k10
    dsimp only at *
    intro hne2 j hj hidle
    have hj2 : j < ws.length := by simpa using hj
    have hjne : j ≠ i := by
      intro h
      subst h
      rw [List.getElem_set_self _] at hidle
      exact Option.noConfusion hidle
    rw [List.getElem_set_ne (fun h => hjne h.symm) _] at hidle ⊢
    exact hk100 ⟨m, hm_filter⟩ j hj2 hidle
  · -- wne
    intro h
    have := congrArg List.length h
    rw [List.length_set] at this
    exact hwne0 (List.length_eq_zero.mp (by simpa using this))

/-- Invariant preservation: iteration that retires `s`, finds nothing
assignable, and ticks. -/
theorem schedInv_retire_tick {G : Graph} {base : ℕ} {R : Graph} {ws : List Worker}
    {started : List ℕ} {i time s : ℕ}
    (hInv : SchedInv G base ⟨R, ws, started⟩)
    (hsel : selectWorker ws = some (i, (some s, time)))
    (hminA : ((externalsIncoming (removeNode R s)).filter (fun x => x ∉ started)).min = none)
    (hcard : (removeNode R s).nodes.card ≠ 0) :
    schedStep base ⟨R, ws, started⟩ =
      .next ⟨removeNode R s, ws.set i (none, time + 1), started⟩ ∧
    SchedInv G base ⟨removeNode R s, ws.set i (none, time + 1), started⟩ := by
  obtain ⟨hwf0, hac0, hsub0, hsnodup0, hssub0, hjdisj0, hjready0, hjstarted0, hsback0,
    hdsub0, hk10, hk20, hj10, hj30, hk100, hwne0⟩ := hInv
  dsimp only at hwf0 hac0 hsub0 hsnodup0 hssub0 hjdisj0 hjready0 hjstarted0 hsback0 hdsub0 hk10 hk20 hj10 hj30 hk100 hwne0
  obtain ⟨hi, hgi⟩ := selectWorker_elem hsel
  have hji : (ws[i]).1 = some s := by rw [hgi]
  have hti : (ws[i]).2 = time := by rw [hgi]
  have hs_ext : s ∈ externalsIncoming R := hjready0 i hi s hji
  have hs_started : s ∈ started := hjstarted0 i hi s hji
  have hs_node : s ∈ R.nodes := externalsIncoming_subset R hs_ext
  have hdone : G.nodes \ (removeNode R s).nodes = insert s (G.nodes \ R.nodes) :=
    done_set_retire hsub0 hs_node
  have hsnd : s ∉ G.nodes \ R.nodes := fun h => (Finset.mem_sdiff.mp h).2 hs_node
  have hsum_done : durSum base (G.nodes \ (removeNode R s).nodes) =
      Step.duration s base + durSum base (G.nodes \ R.nodes) := by
    rw [hdone, durSum_insert hsnd]
  have k2i : time ≤ durSum base (G.nodes \ R.nodes) + Step.duration s base := by
    have := hk20 i hi s hji
    rw [hti] at this
    exact this
  have k2i' : time ≤ durSum base (G.nodes \ (removeNode R s).nodes) := by omega
  have hstep : schedStep base ⟨R, ws, started⟩ =
      .next ⟨removeNode R s, ws.set i (none, time + 1), started⟩ :=
    (schedStep_retire hsel hs_ext).trans (assignPhase_tick hminA hcard)
  have hA : (externalsIncoming (removeNode R s)).filter (fun x => x ∉ started) = ∅ :=
    Finset.min_eq_top.mp (by rw [hminA]; rfl)
  have hdsub2 : ∀ n ∈ G.nodes, n ∉ (removeNode R s).nodes → n ∈ started := by
    intro n hG hn
    rw [removeNode_nodes] at hn
    by_cases hns : n = s
    · rw [hns]
      exact hs_started
    · refine hdsub0 n hG ?_
      intro hR
      exact hn (Finset.mem_erase.mpr ⟨hns, hR⟩)
  have hRne : (removeNode R s).nodes.Nonempty := Finset.card_pos.mp (Nat.pos_of_ne_zero hcard)
  obtain ⟨x, hx_ext⟩ := ready_nonempty (wf_removeNode hwf0 s) (acyclic_removeNode hac0 s) hRne
  have hx_nodeR2 : x ∈ (removeNode R s).nodes := externalsIncoming_subset _ hx_ext
  have hx_started : x ∈ started := by
    by_contra hxn
    have : x ∈ (externalsIncoming (removeNode R s)).filter (fun y => y ∉ started) :=
      Finset.mem_filter.mpr ⟨hx_ext, hxn⟩
    rw [hA] at this
    exact absurd this (Finset.not_mem_empty x)
  have hx_nodeR : x ∈ R.nodes := by
    rw [removeNode_nodes] at hx_nodeR2
    exact Finset.mem_of_mem_erase hx_nodeR2
  have hxs : x ≠ s := by
    rw [removeNode_nodes] at hx_nodeR2
    exact (Finset.mem_erase.mp hx_nodeR2).1
  obtain ⟨j0, hj0, hjob0⟩ := hsback0 x hx_nodeR hx_started
  have hj0i : j0 ≠ i := by
    intro h
    subst h
    rw [hji] at hjob0
    exact hxs (Option.some.inj hjob0).symm
  refine ⟨hstep, ?_, ?_, ?_, ?_, ?_, ?_, ?_, ?_, ?_, ?_, ?_, ?_, ?_, ?_, ?_, ?_⟩
  · exact wf_removeNode hwf0 s
  · exact acyclic_removeNode hac0 s
  · exact (show (removeNode R s).nodes ⊆ R.nodes by
      rw [removeNode_nodes]; exact Finset.erase_subset _ _).trans hsub0
  · exact hsnodup0
  · exact hssub0
  · -- jdisj
    dsimp only at *
    intro j k hj hk hjk x2 hx
    have hj2 : j < ws.length := by simpa using hj
    have hk2 : k < ws.length := by simpa using hk
    by_cases hji2 : j = i
    · subst hji2
      rw [List.getElem_set_self _] at hx
      exact Option.noConfusion hx
    · rw [List.getElem_set_ne (fun h => hji2 h.symm) _] at hx
      by_cases hki : k = i
      · subst hki
        rw [List.getElem_set_self _]
        intro hcontra
        exact Option.noConfusion hcontra
      · rw [List.getElem_set_ne (fun h => hki h.symm) _]
        exact hjdisj0 j k hj2 hk2 hjk x2 hx
  · -- jready
    dsimp only at *
    intro j hj x2 hx
    have hj2 : j < ws.length := by simpa using hj
    by_cases hji2 : j = i
    · subst hji2
      rw [List.getElem_set_self _] at hx
      exact Option.noConfusion hx
    · rw [List.getElem_set_ne (fun h => hji2 h.symm) _] at hx
      have hxs2 : x2 ≠ s := by
        intro h
        rw [h] at hx
        exact hjdisj0 j i hj2 hi hji2 s hx hji
      exact externals_removeNode (hjready0 j hj2 x2 hx) hxs2
  · -- jstarted
    dsimp only at *
    intro j hj x2 hx
    have hj2 : j < ws.length := by simpa using hj
    by_cases hji2 : j = i
    · subst hji2
      rw [List.getElem_set_self _] at hx
      exact Option.noConfusion hx
    · rw [List.getElem_set_ne (fun h => hji2 h.symm) _] at hx
      exact hjstarted0 j hj2 x2 hx
  · -- sback
    dsimp only at *
    intro x2 hxR hxs2
    have hxRn : x2 ∈ R.nodes := by
      rw [removeNode_nodes] at hxR
      exact Finset.mem_of_mem_erase hxR
    obtain ⟨j, hj, hjx⟩ := hsback0 x2 hxRn hxs2
    have hxns : x2 ≠ s := by
      rw [removeNode_nodes] at hxR
      exact (Finset.mem_erase.mp hxR).1
    have hjne : j ≠ i := by
      intro h
      subst h
      rw [hji] at hjx
      exact hxns (Option.some.inj hjx).symm
    refine ⟨j, by simpa using hj, ?_⟩
    rw [List.getElem_set_ne (fun h => hjne h.symm) _]
    exact hjx
  · -- dsub
    exact hdsub2
  · -- k1
    dsimp only at *
    intro j hj
    have hj2 : j < ws.length := by simpa using hj
    by_cases hji2 : j = i
    · subst hji2
      rw [List.getElem_set_self _]
      have hxnd : x ∉ G.nodes \ (removeNode R s).nodes := fun h =>
        (Finset.mem_sdiff.mp h).2 hx_nodeR2
      have hle : durSum base (insert x (G.nodes \ (removeNode R s).nodes)) ≤
          durSum base started.toFinset := by
        apply durSum_mono
        intro n hn
        rcases Finset.mem_insert.mp hn with rfl | hn2
        · rw [List.mem_toFinset]; exact hx_started
        · obtain ⟨hG, hnR⟩ := Finset.mem_sdiff.mp hn2
          rw [List.mem_toFinset]
          exact hdsub2 n hG hnR
      rw [durSum_insert hxnd] at hle
      have hd1 := one_le_duration x base
      show time + 1 ≤ _
      omega
    · rw [List.getElem_set_ne (fun h => hji2 h.symm) _]
      exact hk10 j hj2
  · -- k2
    dsimp only at *
    intro j hj x2 hx
    have hj2 : j < ws.length := by simpa using hj
    by_cases hji2 : j = i
    · subst hji2
      rw [List.getElem_set_self _] at hx
      exact Option.noConfusion hx
    · rw [List.getElem_set_ne (fun h => hji2 h.symm) _] at hx ⊢
      have := hk20 j hj2 x2 hx
      omega
  · -- j1
    dsimp only at *
    intro j hj hidle k hk
    have hj2 : j < ws.length := by simpa using hj
    have hk2 : k < ws.length := by simpa using hk
    by_cases hji2 : j = i
    · subst hji2
      rw [List.getElem_set_self _]
      by_cases hki : k = j
      · subst hki
        rw [List.getElem_set_self _]
        show time + 1 ≤ time + 1 + 1
        omega
      · rw [List.getElem_set_ne (fun h => hki h.symm) _]
        have := sel_time_le hsel k hk2
        show time + 1 ≤ _
        omega
    · rw [List.getElem_set_ne (fun h => hji2 h.symm) _] at hidle ⊢
      by_cases hki : k = i
      · subst hki
        rw [List.getElem_set_self _]
        have hx2 := hj10 j hj2 hidle k hi
        rw [hti] at hx2
        show _ ≤ time + 1 + 1
        omega
      · rw [List.getElem_set_ne (fun h => hki h.symm) _]
        exact hj10 j hj2 hidle k hk2
  · -- j3
    dsimp only at *
    intro j hj hidle
    have hj2 : j < ws.length := by simpa using hj
    by_cases hji2 : j = i
    · subst hji2
      left
      rw [List.getElem_set_self _]
      show time + 1 ≤ _
      omega
    · rw [List.getElem_set_ne (fun h => hji2 h.symm) _] at hidle
      rcases hj30 j hj2 hidle with h1 | ⟨_, hall⟩
      · left
        rw [List.getElem_set_ne (fun h => hji2 h.symm) _]
        omega
      · right
        constructor
        · refine ⟨j0, by simpa using hj0, ?_⟩
          rw [List.getElem_set_ne (fun h => hj0i h.symm) _, hjob0]
          rfl
        · intro k hk hbusy
          have hk2 : k < ws.length := by simpa using hk
          rw [List.getElem_set_ne (fun h => hji2 h.symm) _]
          by_cases hki : k = i
          · subst hki
            rw [List.getElem_set_self _] at hbusy
            simp at hbusy
          · rw [List.getElem_set_ne (fun h => hki h.symm) _] at hbusy ⊢
            exact hall k hk2 hbusy
  · -- k10
    dsimp only at *
    intro hne2 j hj hidle
    rw [hA] at hne2
    exact absurd hne2 Finset.not_nonempty_empty
  · -- wne
    intro h
    have := congrArg List.length h
    rw [List.length_set] at this
    exact hwne0 (List.length_eq_zero.mp (by simpa using this))

/-- Invariant preservation: iteration with an idle selected worker, nothing
assignable, that ticks. -/
theorem schedInv_idle_tick {G : Graph} {base : ℕ} {R : Graph} {ws : List Worker}
    {started : List ℕ} {i time : ℕ}
    (hInv : SchedInv G base ⟨R, ws, started⟩)
    (hsel : selectWorker ws = some (i, (none, time)))
    (hminA : ((externalsIncoming R).filter (fun x => x ∉ started)).min = none)
    (hcard : R.nodes.card ≠ 0) :
    schedStep base ⟨R, ws, started⟩ =
      .next ⟨R, ws.set i (none, time + 1), started⟩ ∧
    SchedInv G base ⟨R, ws.set i (none, time + 1), started⟩ := by
  obtain ⟨hwf0, hac0, hsub0, hsnodup0, hssub0, hjdisj0, hjready0, hjstarted0, hsback0,
    hdsub0, hk10, hk20, hj10, hj30, hk100, hwne0⟩ := hInv
  dsimp only at hwf0 hac0 hsub0 hsnodup0 hssub0 hjdisj0 hjready0 hjstarted0 hsback0 hdsub0 hk10 hk20 hj10 hj30 hk100 hwne0
  obtain ⟨hi, hgi⟩ := selectWorker_elem hsel
  have hji : (ws[i]).1 = none := by rw [hgi]
  have hti : (ws[i]).2 = time := by rw [hgi]
  have hstep : schedStep base ⟨R, ws, started⟩ =
      .next ⟨R, ws.set i (none, time + 1), started⟩ :=
    (schedStep_idle hsel).trans (assignPhase_tick hminA hcard)
  have hA : (externalsIncoming R).filter (fun x => x ∉ started) = ∅ :=
    Finset.min_eq_top.mp (by rw [hminA]; rfl)
  have hRne : R.nodes.Nonempty := Finset.card_pos.mp (Nat.pos_of_ne_zero hcard)
  obtain ⟨x, hx_ext⟩ := ready_nonempty hwf0 hac0 hRne
  have hx_node : x ∈ R.nodes := externalsIncoming_subset _ hx_ext
  have hx_started : x ∈ started := by
    by_contra hxn
    have : x ∈ (externalsIncoming R).filter (fun y => y ∉ started) :=
      Finset.mem_filter.mpr ⟨hx_ext, hxn⟩
    rw [hA] at this
    exact absurd this (Finset.not_mem_empty x)
  obtain ⟨j0, hj0, hjob0⟩ := hsback0 x hx_node hx_started
  have hj0i : j0 ≠ i := by
    intro h
    subst h
    rw [hji] at hjob0
    exact Option.noConfusion hjob0
  have hstrict : time < (ws[j0]).2 :=
    sel_idle_strict hsel j0 hj0 (by rw [hjob0]; rfl)
  refine ⟨hstep, ?_, ?_, ?_, ?_, ?_, ?_, ?_, ?_, ?_, ?_, ?_, ?_, ?_, ?_, ?_, ?_⟩
  · exact hwf0
  · exact hac0
  · exact hsub0
  · exact hsnodup0
  · exact hssub0
  · -- jdisj
    dsimp only at *
    intro j k hj hk hjk x2 hx
    have hj2 : j < ws.length := by simpa using hj
    have hk2 : k < ws.length := by simpa using hk
    by_cases hji2 : j = i
    · subst hji2
      rw [List.getElem_set_self _] at hx
      exact Option.noConfusion hx
    · rw [List.getElem_set_ne (fun h => hji2 h.symm) _] at hx
      by_cases hki : k = i
      · subst hki
        rw [List.getElem_set_self _]
        intro hcontra
        exact Option.noConfusion hcontra
      · rw [List.getElem_set_ne (fun h => hki h.symm) _]
        exact hjdisj0 j k hj2 hk2 hjk x2 hx
  · -- jready
    dsimp only at *
    intro j hj x2 hx
    have hj2 : j < ws.length := by simpa using hj
    by_cases hji2 : j = i
    · subst hji2
      rw [List.getElem_set_self _] at hx
      exact Option.noConfusion hx
    · rw [List.getElem_set_ne (fun h => hji2 h.symm) _] at hx
      exact hjready0 j hj2 x2 hx
  · -- jstarted
    dsimp only at *
    intro j hj x2 hx
    have hj2 : j < ws.length := by simpa using hj
    by_cases hji2 : j = i
    · subst hji2
      rw [List.getElem_set_self _] at hx
      exact Option.noConfusion hx
    · rw [List.getElem_set_ne (fun h => hji2 h.symm) _] at hx
      exact hjstarted0 j hj2 x2 hx
  · -- sback
    dsimp only at *
    intro x2 hxR hxs2
    obtain ⟨j, hj, hjx⟩ := hsback0 x2 hxR hxs2
    have hjne : j ≠ i := by
      intro h
      subst h
      rw [hji] at hjx
      exact Option.noConfusion hjx
    refine ⟨j, by simpa using hj, ?_⟩
    rw [List.getElem_set_ne (fun h => hjne h.symm) _]
    exact hjx
  · -- dsub
    exact hdsub0
  · -- k1
    dsimp only at *
    intro j hj
    have hj2 : j < ws.length := by simpa using hj
    by_cases hji2 : j = i
    · subst hji2
      rw [List.getElem_set_self _]
      have := hk10 j0 hj0
      show time + 1 ≤ _
      omega
    · rw [List.getElem_set_ne (fun h => hji2 h.symm) _]
      exact hk10 j hj2
  · -- k2
    dsimp only at *
    intro j hj x2 hx
    have hj2 : j < ws.length := by simpa using hj
    by_cases hji2 : j = i
    · subst hji2
      rw [List.getElem_set_self _] at hx
      exact Option.noConfusion hx
    · rw [List.getElem_set_ne (fun h => hji2 h.symm) _] at hx ⊢
      exact hk20 j hj2 x2 hx
  · -- j1
    dsimp only at *
    intro j hj hidle k hk
    have hj2 : j < ws.length := by simpa using hj
    have hk2 : k < ws.length := by simpa using hk
    by_cases hji2 : j = i
    · subst hji2
      rw [List.getElem_set_self _]
      by_cases hki : k = j
      · subst hki
        rw [List.getElem_set_self _]
        show time + 1 ≤ time + 1 + 1
        omega
      · rw [List.getElem_set_ne (fun h => hki h.symm) _]
        have := sel_time_le hsel k hk2
        show time + 1 ≤ _
        omega
    · rw [List.getElem_set_ne (fun h => hji2 h.symm) _] at hidle ⊢
      by_cases hki : k = i
      · subst hki
        rw [List.getElem_set_self _]
        have hx2 := hj10 j hj2 hidle k hi
        rw [hti] at hx2
        show _ ≤ time + 1 + 1
        omega
      · rw [List.getElem_set_ne (fun h => hki h.symm) _]
        exact hj10 j hj2 hidle k hk2
  · -- j3
    dsimp only at *
    intro j hj hidle
    have hj2 : j < ws.length := by simpa using hj
    by_cases hji2 : j = i
    · subst hji2
      right
      constructor
      · refine ⟨j0, by simpa using hj0, ?_⟩
        rw [List.getElem_set_ne (fun h => hj0i h.symm) _, hjob0]
        rfl
      · intro k hk hbusy
        have hk2 : k < ws.length := by simpa using hk
        rw [List.getElem_set_self _]
        by_cases hki : k = j
        · subst hki
          rw [List.getElem_set_self _] at hbusy
          simp at hbusy
        · rw [List.getElem_set_ne (fun h => hki h.symm) _] at hbusy ⊢
          have := sel_idle_strict hsel k hk2 hbusy
          show time + 1 ≤ _
          omega
    · rw [List.getElem_set_ne (fun h => hji2 h.symm) _] at hidle
      rcases hj30 j hj2 hidle with h1 | ⟨_, hall⟩
      · left
        rw [List.getElem_set_ne (fun h => hji2 h.symm) _]
        omega
      · right
        constructor
        · refine ⟨j0, by simpa using hj0, ?_⟩
          rw [List.getElem_set_ne (fun h => hj0i h.symm) _, hjob0]
          rfl
        · intro k hk hbusy
          have hk2 : k < ws.length := by simpa using hk
          rw [List.getElem_set_ne (fun h => hji2 h.symm) _]
          by_cases hki : k = i
          · subst hki
            rw [List.getElem_set_self _] at hbusy
            simp at hbusy
          · rw [List.getElem_set_ne (fun h => hki h.symm) _] at hbusy ⊢
            exact hall k hk2 hbusy
  · -- k10
    dsimp only at *
    intro hne2 j hj hidle
    rw [hA] at hne2
    exact absurd hne2 Finset.not_nonempty_empty
  · -- wne
    intro h
    have := congrArg List.length h
    rw [List.length_set] at this
    exact hwne0 (List.length_eq_zero.mp (by simpa using this))

/-- When the loop breaks after retiring `s`, the returned time dominates the
selected clock and every worker clock, and is at most the total started work. -/
theorem schedInv_retire_break {G : Graph} {base : ℕ} {R : Graph} {ws : List Worker}
    {started : List ℕ} {i time s : ℕ}
    (hInv : SchedInv G base ⟨R, ws, started⟩)
    (hsel : selectWorker ws = some (i, (some s, time)))
    (hminA : ((externalsIncoming (removeNode R s)).filter (fun x => x ∉ started)).min = none)
    (hcard : (removeNode R s).nodes.card = 0) :
    ∃ t, schedStep base ⟨R, ws, started⟩ = .done t started ∧
      time ≤ t ∧ (∀ k (hk : k < ws.length), (ws[k]).2 ≤ t) ∧
      t ≤ durSum base started.toFinset := by
  obtain ⟨hwf0, hac0, hsub0, hsnodup0, hssub0, hjdisj0, hjready0, hjstarted0, hsback0,
    hdsub0, hk10, hk20, hj10, hj30, hk100, hwne0⟩ := hInv
  dsimp only at hwf0 hac0 hsub0 hsnodup0 hssub0 hjdisj0 hjready0 hjstarted0 hsback0 hdsub0 hk10 hk20 hj10 hj30 hk100 hwne0
  obtain ⟨hi, hgi⟩ := selectWorker_elem hsel
  have hji : (ws[i]).1 = some s := by rw [hgi]
  have hti : (ws[i]).2 = time := by rw [hgi]
  have hs_ext : s ∈ externalsIncoming R := hjready0 i hi s hji
  have hemp : (removeNode R s).nodes = ∅ := Finset.card_eq_zero.mp hcard
  have hRsub : ∀ n ∈ R.nodes, n = s := by
    intro n hn
    by_contra hne
    have h2 : n ∈ (removeNode R s).nodes := by
      rw [removeNode_nodes]
      exact Finset.mem_erase.mpr ⟨hne, hn⟩
    rw [hemp] at h2
    exact absurd h2 (Finset.not_mem_empty n)
  have hidx : ∀ k (hk : k < (ws.set i ((none : Option ℕ), time)).length),
      ((ws.set i ((none : Option ℕ), time))[k]).1 = none := by
    intro k hk
    have hk2 : k < ws.length := by simpa using hk
    by_cases hki : k = i
    · subst hki
      rw [List.getElem_set_self _]
    · rw [List.getElem_set_ne (fun h => hki h.symm) _]
      cases hjob : (ws[k]).1 with
      | none => rfl
      | some y =>
        have hy : y ∈ externalsIncoming R := hjready0 k hk2 y hjob
        have hys : y = s := hRsub y (externalsIncoming_subset R hy)
        rw [hys] at hjob
        exact absurd hji (hjdisj0 k i hk2 hi hki s hjob)
  have hmem_none : ∀ x ∈ ws.set i ((none : Option ℕ), time), x.1 = none := by
    intro x hx
    obtain ⟨k, hk, heq⟩ := List.mem_iff_getElem.mp hx
    rw [← heq]
    exact hidx k hk
  have hne : ws.set i ((none : Option ℕ), time) ≠ [] := by
    intro h
    have := congrArg List.length h
    rw [List.length_set] at this
    exact hwne0 (List.length_eq_zero.mp (by simpa using this))
  obtain ⟨w, hw⟩ := maxWorker_of_ne hne
  have hspec := maxWorker_none_spec hw hmem_none
  have hstep : schedStep base ⟨R, ws, started⟩ = .done w.2 started := by
    refine ((schedStep_retire hsel hs_ext).trans (assignPhase_stop hminA hcard)).trans ?_
    rw [hw]
  have hmemi : ((none : Option ℕ), time) ∈ ws.set i ((none : Option ℕ), time) := by
    have hilen : i < (ws.set i ((none : Option ℕ), time)).length := by simpa using hi
    have h2 : (ws.set i ((none : Option ℕ), time))[i] =
        ((none : Option ℕ), time) := List.getElem_set_self _
    have h3 := List.getElem_mem hilen
    rw [h2] at h3
    exact h3
  have htw : time ≤ w.2 := hspec _ hmemi
  refine ⟨w.2, hstep, htw, ?_, ?_⟩
  · intro k hk
    by_cases hki : k = i
    · have h2 : (ws[k]).2 = time := by
        subst hki
        exact hti
      omega
    · have hmem2 : ws[k] ∈ ws.set i ((none : Option ℕ), time) := by
        have hklen : k < (ws.set i ((none : Option ℕ), time)).length := by simpa using hk
        have h2 : (ws.set i ((none : Option ℕ), time))[k] = ws[k] :=
          List.getElem_set_ne (fun h => hki h.symm) _
        have h3 := List.getElem_mem hklen
        rw [h2] at h3
        exact h3
      exact hspec _ hmem2
  · rcases mem_of_mem_set _ _ _ _ (maxWorker_mem hw) with heq | hmem3
    · rw [heq]
      have h2 := hk10 i hi
      rw [hti] at h2
      exact h2
    · obtain ⟨k, hk, heq⟩ := List.mem_iff_getElem.mp hmem3
      rw [← heq]
      exact hk10 k hk

/-- When the loop breaks with an idle selected worker, the returned time
dominates the selected clock and every worker clock, and is at most the total
started work. -/
theorem schedInv_idle_break {G : Graph} {base : ℕ} {R : Graph} {ws : List Worker}
    {started : List ℕ} {i time : ℕ}
    (hInv : SchedInv G base ⟨R, ws, started⟩)
    (hsel : selectWorker ws = some (i, (none, time)))
    (hminA : ((externalsIncoming R).filter (fun x => x ∉ started)).min = none)
    (hcard : R.nodes.card = 0) :
    ∃ t, schedStep base ⟨R, ws, started⟩ = .done t started ∧
      time ≤ t ∧ (∀ k (hk : k < ws.length), (ws[k]).2 ≤ t) ∧
      t ≤ durSum base started.toFinset := by
  obtain ⟨hwf0, hac0, hsub0, hsnodup0, hssub0, hjdisj0, hjready0, hjstarted0, hsback0,
    hdsub0, hk10, hk20, hj10, hj30, hk100, hwne0⟩ := hInv
  dsimp only at hwf0 hac0 hsub0 hsnodup0 hssub0 hjdisj0 hjready0 hjstarted0 hsback0 hdsub0 hk10 hk20 hj10 hj30 hk100 hwne0
  obtain ⟨hi, hgi⟩ := selectWorker_elem hsel
  have hji : (ws[i]).1 = none := by rw [hgi]
  have hti : (ws[i]).2 = time := by rw [hgi]
  have hemp : R.nodes = ∅ := Finset.card_eq_zero.mp hcard
  have hidx : ∀ k (hk : k < (ws.set i ((none : Option ℕ), time)).length),
      ((ws.set i ((none : Option ℕ), time))[k]).1 = none := by
    intro k hk
    have hk2 : k < ws.length := by simpa using hk
    by_cases hki : k = i
    · subst hki
      rw [List.getElem_set_self _]
    · rw [List.getElem_set_ne (fun h => hki h.symm) _]
      cases hjob : (ws[k]).1 with
      | none => rfl
      | some y =>
        have hy : y ∈ R.nodes :=
          externalsIncoming_subset R (hjready0 k hk2 y hjob)
        rw [hemp] at hy
        exact absurd hy (Finset.not_mem_empty y)
  have hmem_none : ∀ x ∈ ws.set i ((none : Option ℕ), time), x.1 = none := by
    intro x hx
    obtain ⟨k, hk, heq⟩ := List.mem_iff_getElem.mp hx
    rw [← heq]
    exact hidx k hk
  have hne : ws.set i ((none : Option ℕ), time) ≠ [] := by
    intro h
    have := congrArg List.length h
    rw [List.length_set] at this
    exact hwne0 (List.length_eq_zero.mp (by simpa using this))
  obtain ⟨w, hw⟩ := maxWorker_of_ne hne
  have hspec := maxWorker_none_spec hw hmem_none
  have hstep : schedStep base ⟨R, ws, started⟩ = .done w.2 started := by
    refine ((schedStep_idle hsel).trans (assignPhase_stop hminA hcard)).trans ?_
    rw [hw]
  have hmemi : ((none : Option ℕ), time) ∈ ws.set i ((none : Option ℕ), time) := by
    have hilen : i < (ws.set i ((none : Option ℕ), time)).length := by simpa using hi
    have h2 : (ws.set i ((none : Option ℕ), time))[i] =
        ((none : Option ℕ), time) := List.getElem_set_self _
    have h3 := List.getElem_mem hilen
    rw [h2] at h3
    exact h3
  have htw : time ≤ w.2 := hspec _ hmemi
  refine ⟨w.2, hstep, htw, ?_, ?_⟩
  · intro k hk
    by_cases hki : k = i
    · have h2 : (ws[k]).2 = time := by
        subst hki
        exact hti
      omega
    · have hmem2 : ws[k] ∈ ws.set i ((none : Option ℕ), time) := by
        have hklen : k < (ws.set i ((none : Option ℕ), time)).length := by simpa using hk
        have h2 : (ws.set i ((none : Option ℕ), time))[k] = ws[k] :=
          List.getElem_set_ne (fun h => hki h.symm) _
        have h3 := List.getElem_mem hklen
        rw [h2] at h3
        exact h3
      exact hspec _ hmem2
  · rcases mem_of_mem_set _ _ _ _ (maxWorker_mem hw) with heq | hmem3
    · rw [heq]
      have h2 := hk10 i hi
      rw [hti] at h2
      exact h2
    · obtain ⟨k, hk, heq⟩ := List.mem_iff_getElem.mp hmem3
      rw [← heq]
      exact hk10 k hk

/-- Upper bound: under the invariant, whenever the loop halts its result is at
most the total duration of all nodes of the original graph. -/
theorem schedRun_upper {G : Graph} {base : ℕ} : ∀ (fuel : ℕ) (S : SchedState)
    (t : ℕ) (st : List ℕ), SchedInv G base S →
    schedRun base fuel S = SchedOut.done t st → t ≤ durSum base G.nodes := by
  intro fuel
  induction fuel with
  | zero =>
    intro S t st _ hrun
    exact SchedOut.noConfusion hrun
  | succ fuel ih =>
    intro S t st hInv hrun
    obtain ⟨R, ws, started⟩ := S
    obtain ⟨i, w, hsel⟩ := selectWorker_of_ne hInv.wne
    obtain ⟨jb, time⟩ := w
    have hsub2 : started.toFinset ⊆ G.nodes := fun x hx =>
      hInv.ssub x (List.mem_toFinset.mp hx)
    cases jb with
    | some s =>
      match hminA : ((externalsIncoming (removeNode R s)).filter
          (fun x => x ∉ started)).min with
      | some m =>
        obtain ⟨hstep, hInv2⟩ := schedInv_retire_assign hInv hsel hminA
        exact ih _ t st hInv2 ((schedRun_next hstep).symm.trans hrun)
      | none =>
        by_cases hcard : (removeNode R s).nodes.card = 0
        · obtain ⟨t2, hstep, _, _, hle⟩ := schedInv_retire_break hInv hsel hminA hcard
          have heq := (schedRun_done hstep).symm.trans hrun
          injection heq with h1 h2
          rw [← h1]
          exact hle.trans (durSum_mono hsub2)
        · obtain ⟨hstep, hInv2⟩ := schedInv_retire_tick hInv hsel hminA hcard
          exact ih _ t st hInv2 ((schedRun_next hstep).symm.trans hrun)
    | none =>
      match hminA : ((externalsIncoming R).filter (fun x => x ∉ started)).min with
      | some m =>
        obtain ⟨hstep, hInv2⟩ := schedInv_idle_assign hInv hsel hminA
        exact ih _ t st hInv2 ((schedRun_next hstep).symm.trans hrun)
      | none =>
        by_cases hcard : R.nodes.card = 0
        · obtain ⟨t2, hstep, _, _, hle⟩ := schedInv_idle_break hInv hsel hminA hcard
          have heq := (schedRun_done hstep).symm.trans hrun
          injection heq with h1 h2
          rw [← h1]
          exact hle.trans (durSum_mono hsub2)
        · obtain ⟨hstep, hInv2⟩ := schedInv_idle_tick hInv hsel hminA hcard
          exact ih _ t st hInv2 ((schedRun_next hstep).symm.trans hrun)

theorem chainW_nil (base : ℕ) : chainW base [] = 0 := rfl

theorem chainW_cons (base h : ℕ) (rest : List ℕ) :
    chainW base (h :: rest) = Step.duration h base + chainW base rest := by
  simp [chainW]

/-- Elements of a chain's tail avoid any external node `m`; in particular they
avoid `m :: started` whenever they avoid `started`. -/
theorem chain_unstarted_cons {H : Graph} {c : List ℕ} {hd m : ℕ} {started : List ℕ}
    (hchain : ChainIn H (hd :: c)) (hm : m ∈ externalsIncoming H)
    (hunst : ∀ y ∈ c, y ∉ started) : ∀ y ∈ c, y ∉ m :: started := by
  intro y hy hmem
  rcases List.mem_cons.mp hmem with rfl | h2
  · exact chain_tail_not_external hchain y hy hm
  · exact hunst y hy h2

/-- Lower bound: under the invariant, whenever the loop halts with time `t`,
`t` dominates every worker clock, every lower bound on the clocks plus the
weight of any unstarted dependency chain of the remaining graph, and every
in-flight worker's clock plus the weight of any unstarted chain hanging off
its job. -/
theorem schedRun_lower {G : Graph} {base : ℕ} : ∀ (fuel : ℕ) (S : SchedState)
    (t : ℕ) (st : List ℕ), SchedInv G base S →
    schedRun base fuel S = SchedOut.done t st →
    (∀ k (hk : k < S.workers.length), (S.workers[k]).2 ≤ t) ∧
    (∀ (mc : ℕ) (c : List ℕ),
      (∀ k (hk : k < S.workers.length), mc ≤ (S.workers[k]).2) →
      ChainIn S.remaining c → (∀ x ∈ c, x ∉ S.started) →
      mc + chainW base c ≤ t) ∧
    (∀ j (hj : j < S.workers.length) (x : ℕ) (rest : List ℕ),
      (S.workers[j]).1 = some x → ChainIn S.remaining (x :: rest) →
      (∀ y ∈ rest, y ∉ S.started) →
      (S.workers[j]).2 + chainW base rest ≤ t) := by
  intro fuel
  induction fuel with
  | zero =>
    intro S t st _ hrun
    exact SchedOut.noConfusion hrun
  | succ fuel ih =>
    intro S t st hInv hrun
    obtain ⟨R, ws, started⟩ := S
    dsimp only
    obtain ⟨i, w, hsel⟩ := selectWorker_of_ne hInv.wne
    obtain ⟨jb, time⟩ := w
    obtain ⟨hi, hgi⟩ := selectWorker_elem hsel
    have hti : (ws[i]).2 = time := by rw [hgi]
    cases jb with
    | some s =>
      have hji : (ws[i]).1 = some s := by rw [hgi]
      have hs_started : s ∈ started := hInv.jstarted i hi s hji
      match hminA : ((externalsIncoming (removeNode R s)).filter
          (fun x => x ∉ started)).min with
      | some m =>
        -- retire `s`, assign `m`
        obtain ⟨hstep, hInv2⟩ := schedInv_retire_assign hInv hsel hminA
        obtain ⟨C2, A2, B2⟩ := ih _ t st hInv2 ((schedRun_next hstep).symm.trans hrun)
        dsimp only at C2 A2 B2
        have hm_filter : m ∈ (externalsIncoming (removeNode R s)).filter
            (fun x => x ∉ started) := Finset.mem_of_min hminA
        have hm_ext : m ∈ externalsIncoming (removeNode R s) :=
          (Finset.mem_filter.mp hm_filter).1
        have hilen : i < (ws.set i ((some m : Option ℕ),
            time + Step.duration m base)).length := by simpa using hi
        have hCi := C2 i hilen
        rw [List.getElem_set_self _] at hCi
        have hji2 : ((ws.set i ((some m : Option ℕ),
            time + Step.duration m base))[i]).1 = some m := by
          rw [List.getElem_set_self _]
        have htimemc : ∀ k (hk : k < (ws.set i ((some m : Option ℕ),
            time + Step.duration m base)).length), time ≤ ((ws.set i
            ((some m : Option ℕ), time + Step.duration m base))[k]).2 := by
          intro k hk
          have hk2 : k < ws.length := by simpa using hk
          by_cases hki : k = i
          · subst hki
            rw [List.getElem_set_self _]
            show time ≤ time + Step.duration m base
            omega
          · rw [List.getElem_set_ne (fun h => hki h.symm) _]
            exact sel_time_le hsel k hk2
        refine ⟨?_, ?_, ?_⟩
        · -- clocks
          intro k hk
          by_cases hki : k = i
          · subst hki
            rw [hti]
            show time ≤ t
            have : time ≤ time + Step.duration m base := by omega
            omega
          · have := C2 k (by simpa using hk)
            rw [List.getElem_set_ne (fun h => hki h.symm) _] at this
            exact this
        · -- unstarted chains
          intro mc c hmc hchain hunst
          have hmctime : mc ≤ time := by
            have := hmc i hi
            rw [hti] at this
            exact this
          have hcs : ∀ x ∈ c, x ≠ s := by
            intro x hx heq
            exact hunst x hx (heq ▸ hs_started)
          have hchain2 : ChainIn (removeNode R s) c := chainIn_removeNode hchain hcs
          cases c with
          | nil =>
            rw [chainW_nil]
            omega
          | cons h rest =>
            by_cases hhm : h = m
            · subst hhm
              have hrest2 := chain_unstarted_cons hchain2 hm_ext
                (fun y hy => hunst y (List.mem_cons_of_mem _ hy))
              have := B2 i hilen h rest hji2 hchain2 hrest2
              rw [List.getElem_set_self _] at this
              rw [chainW_cons]
              omega
            · have hunst2 : ∀ x ∈ h :: rest, x ∉ m :: started := by
                intro x hx hmem
                rcases List.mem_cons.mp hmem with rfl | h2
                · rcases List.mem_cons.mp hx with heq | hx2
                  · exact hhm heq.symm
                  · exact chain_tail_not_external hchain2 x hx2 hm_ext
                · exact hunst x hx h2
              have hmc2 : ∀ k (hk : k < (ws.set i ((some m : Option ℕ),
                  time + Step.duration m base)).length), mc ≤ ((ws.set i
                  ((some m : Option ℕ), time + Step.duration m base))[k]).2 := by
                intro k hk
                have := htimemc k hk
                omega
              exact A2 mc (h :: rest) hmc2 hchain2 hunst2
        · -- in-flight chains
          intro j hj x rest hjx hchain hrest
          have hrs : ∀ y ∈ rest, y ≠ s := by
            intro y hy heq
            exact hrest y hy (heq ▸ hs_started)
          by_cases hjieq : j = i
          · subst hjieq
            have hxs : x = s := by
              rw [hji] at hjx
              exact (Option.some.inj hjx).symm
            subst hxs
            rw [hti]
            have hchainrest : ChainIn (removeNode R x) rest :=
              chainIn_removeNode (chainIn_tail hchain) hrs
            cases rest with
            | nil =>
              rw [chainW_nil]
              show time + 0 ≤ t
              omega
            | cons y rest2 =>
              by_cases hym : y = m
              · subst hym
                have hrest2 := chain_unstarted_cons hchainrest hm_ext
                  (fun z hz => hrest z (List.mem_cons_of_mem _ hz))
                have := B2 j hilen y rest2 hji2 hchainrest hrest2
                rw [List.getElem_set_self _] at this
                rw [chainW_cons]
                omega
              · have hunst2 : ∀ z ∈ y :: rest2, z ∉ m :: started := by
                  intro z hz hmem
                  rcases List.mem_cons.mp hmem with rfl | h2
                  · rcases List.mem_cons.mp hz with heq | hz2
                    · exact hym heq.symm
                    · exact chain_tail_not_external hchainrest z hz2 hm_ext
                  · exact hrest z hz h2
                have := A2 time (y :: rest2) htimemc hchainrest hunst2
                omega
          · have hxns : x ≠ s := by
              intro heq
              exact hInv.jdisj j i hj hi hjieq x hjx (heq ▸ hji)
            have hchain2 : ChainIn (removeNode R s) (x :: rest) :=
              chainIn_removeNode hchain (by
                intro z hz
                rcases List.mem_cons.mp hz with rfl | hz2
                · exact hxns
                · exact hrs z hz2)
            have hrest2 := chain_unstarted_cons hchain2 hm_ext hrest
            have hjlen : j < (ws.set i ((some m : Option ℕ),
                time + Step.duration m base)).length := by simpa using hj
            have hjx2 : ((ws.set i ((some m : Option ℕ),
                time + Step.duration m base))[j]).1 = some x := by
              rw [List.getElem_set_ne (fun h => hjieq h.symm) _]
              exact hjx
            have := B2 j hjlen x rest hjx2 hchain2 hrest2
            rw [List.getElem_set_ne (fun h => hjieq h.symm) _] at this
            exact this
      | none =>
        by_cases hcard : (removeNode R s).nodes.card = 0
        · -- retire `s`, break
          obtain ⟨t2, hstep, htime, hclocks, _⟩ :=
            schedInv_retire_break hInv hsel hminA hcard
          have heq := (schedRun_done hstep).symm.trans hrun
          injection heq with h1 h2
          subst h1
          subst h2
          have hemp : (removeNode R s).nodes = ∅ := Finset.card_eq_zero.mp hcard
          have hRsub : ∀ n ∈ R.nodes, n = s := by
            intro n hn
            by_contra hne
            have h2 : n ∈ (removeNode R s).nodes := by
              rw [removeNode_nodes]
              exact Finset.mem_erase.mpr ⟨hne, hn⟩
            rw [hemp] at h2
            exact absurd h2 (Finset.not_mem_empty n)
          refine ⟨hclocks, ?_, ?_⟩
          · intro mc c hmc hchain hunst
            cases c with
            | nil =>
              rw [chainW_nil]
              have := hmc i hi
              rw [hti] at this
              omega
            | cons h rest =>
              have hhn : h ∈ R.nodes := hchain.1 h (List.mem_cons_self _ _)
              have := hRsub h hhn
              exact absurd (this ▸ hs_started) (hunst h (List.mem_cons_self _ _))
          · intro j hj x rest hjx hchain hrest
            have hxn : x ∈ R.nodes :=
              externalsIncoming_subset R (hInv.jready j hj x hjx)
            have hxs : x = s := hRsub x hxn
            by_cases hjieq : j = i
            · subst hjieq
              cases rest with
              | nil =>
                rw [chainW_nil, hti]
                omega
              | cons y rest2 =>
                have hyn : y ∈ R.nodes :=
                  hchain.1 y (List.mem_cons_of_mem _ (List.mem_cons_self _ _))
                have hys : y = s := hRsub y hyn
                exact absurd (hys ▸ hs_started)
                  (hrest y (List.mem_cons_self _ _))
            · exact absurd hji
                (hxs ▸ hInv.jdisj j i hj hi hjieq x hjx)
        · -- retire `s`, tick
          obtain ⟨hstep, hInv2⟩ := schedInv_retire_tick hInv hsel hminA hcard
          obtain ⟨C2, A2, B2⟩ := ih _ t st hInv2 ((schedRun_next hstep).symm.trans hrun)
          dsimp only at C2 A2 B2
          have hilen : i < (ws.set i ((none : Option ℕ), time + 1)).length := by
            simpa using hi
          have hCi := C2 i hilen
          rw [List.getElem_set_self _] at hCi
          have htimemc : ∀ k (hk : k < (ws.set i ((none : Option ℕ),
              time + 1)).length), time ≤ ((ws.set i ((none : Option ℕ),
              time + 1))[k]).2 := by
            intro k hk
            have hk2 : k < ws.length := by simpa using hk
            by_cases hki : k = i
            · subst hki
              rw [List.getElem_set_self _]
              show time ≤ time + 1
              omega
            · rw [List.getElem_set_ne (fun h => hki h.symm) _]
              exact sel_time_le hsel k hk2
          refine ⟨?_, ?_, ?_⟩
          · intro k hk
            by_cases hki : k = i
            · subst hki
              rw [hti]
              show time ≤ t
              omega
            · have := C2 k (by simpa using hk)
              rw [List.getElem_set_ne (fun h => hki h.symm) _] at this
              exact this
          · intro mc c hmc hchain hunst
            have hcs : ∀ x ∈ c, x ≠ s := by
              intro x hx heq
              exact hunst x hx (heq ▸ hs_started)
            have hchain2 : ChainIn (removeNode R s) c := chainIn_removeNode hchain hcs
            have hmc2 : ∀ k (hk : k < (ws.set i ((none : Option ℕ),
                time + 1)).length), mc ≤ ((ws.set i ((none : Option ℕ),
                time + 1))[k]).2 := by
              intro k hk
              have hmctime : mc ≤ time := by
                have := hmc i hi
                rw [hti] at this
                exact this
              have := htimemc k hk
              omega
            exact A2 mc c hmc2 hchain2 hunst
          · intro j hj x rest hjx hchain hrest
            have hrs : ∀ y ∈ rest, y ≠ s := by
              intro y hy heq
              exact hrest y hy (heq ▸ hs_started)
            by_cases hjieq : j = i
            · subst hjieq
              have hxs : x = s := by
                rw [hji] at hjx
                exact (Option.some.inj hjx).symm
              subst hxs
              rw [hti]
              have hchainrest : ChainIn (removeNode R x) rest :=
                chainIn_removeNode (chainIn_tail hchain) hrs
              have := A2 time rest htimemc hchainrest hrest
              omega
            · have hxns : x ≠ s := by
                intro heq
                exact hInv.jdisj j i hj hi hjieq x hjx (heq ▸ hji)
              have hchain2 : ChainIn (removeNode R s) (x :: rest) :=
                chainIn_removeNode hchain (by
                  intro z hz
                  rcases List.mem_cons.mp hz with rfl | hz2
                  · exact hxns
                  · exact hrs z hz2)
              have hjlen : j < (ws.set i ((none : Option ℕ), time + 1)).length := by
                simpa using hj
              have hjx2 : ((ws.set i ((none : Option ℕ),
                  time + 1))[j]).1 = some x := by
                rw [List.getElem_set_ne (fun h => hjieq h.symm) _]
                exact hjx
              have := B2 j hjlen x rest hjx2 hchain2 hrest
              rw [List.getElem_set_ne (fun h => hjieq h.symm) _] at this
              exact this
    | none =>
      have hji : (ws[i]).1 = none := by rw [hgi]
      match hminA : ((externalsIncoming R).filter (fun x => x ∉ started)).min with
      | some m =>
        -- idle, assign `m`
        obtain ⟨hstep, hInv2⟩ := schedInv_idle_assign hInv hsel hminA
        obtain ⟨C2, A2, B2⟩ := ih _ t st hInv2 ((schedRun_next hstep).symm.trans hrun)
        dsimp only at C2 A2 B2
        have hm_filter : m ∈ (externalsIncoming R).filter
            (fun x => x ∉ started) := Finset.mem_of_min hminA
        have hm_ext : m ∈ externalsIncoming R := (Finset.mem_filter.mp hm_filter).1
        have hilen : i < (ws.set i ((some m : Option ℕ),
            time + Step.duration m base)).length := by simpa using hi
        have hCi := C2 i hilen
        rw [List.getElem_set_self _] at hCi
        have hji2 : ((ws.set i ((some m : Option ℕ),
            time + Step.duration m base))[i]).1 = some m := by
          rw [List.getElem_set_self _]
        have htimemc : ∀ k (hk : k < (ws.set i ((some m : Option ℕ),
            time + Step.duration m base)).length), time ≤ ((ws.set i
            ((some m : Option ℕ), time + Step.duration m base))[k]).2 := by
          intro k hk
          have hk2 : k < ws.length := by simpa using hk
          by_cases hki : k = i
          · subst hki
            rw [List.getElem_set_self _]
            show time ≤ time + Step.duration m base
            omega
          · rw [List.getElem_set_ne (fun h => hki h.symm) _]
            exact sel_time_le hsel k hk2
        refine ⟨?_, ?_, ?_⟩
        · intro k hk
          by_cases hki : k = i
          · subst hki
            rw [hti]
            show time ≤ t
            omega
          · have := C2 k (by simpa using hk)
            rw [List.getElem_set_ne (fun h => hki h.symm) _] at this
            exact this
        · intro mc c hmc hchain hunst
          have hmctime : mc ≤ time := by
            have := hmc i hi
            rw [hti] at this
            exact this
          cases c with
          | nil =>
            rw [chainW_nil]
            omega
          | cons h rest =>
            by_cases hhm : h = m
            · subst hhm
              have hrest2 := chain_unstarted_cons hchain hm_ext
                (fun y hy => hunst y (List.mem_cons_of_mem _ hy))
              have := B2 i hilen h rest hji2 hchain hrest2
              rw [List.getElem_set_self _] at this
              rw [chainW_cons]
              omega
            · have hunst2 : ∀ x ∈ h :: rest, x ∉ m :: started := by
                intro x hx hmem
                rcases List.mem_cons.mp hmem with rfl | h2
                · rcases List.mem_cons.mp hx with heq | hx2
                  · exact hhm heq.symm
                  · exact chain_tail_not_external hchain x hx2 hm_ext
                · exact hunst x hx h2
              have hmc2 : ∀ k (hk : k < (ws.set i ((some m : Option ℕ),
                  time + Step.duration m base)).length), mc ≤ ((ws.set i
                  ((some m : Option ℕ), time + Step.duration m base))[k]).2 := by
                intro k hk
                have := htimemc k hk
                omega
              exact A2 mc (h :: rest) hmc2 hchain hunst2
        · intro j hj x rest hjx hchain hrest
          by_cases hjieq : j = i
          · subst hjieq
            rw [hji] at hjx
            exact Option.noConfusion hjx
          · have hchainrest := chainIn_tail hchain
            have hrest2 := chain_unstarted_cons hchain hm_ext hrest
            have hjlen : j < (ws.set i ((some m : Option ℕ),
                time + Step.duration m base)).length := by simpa using hj
            have hjx2 : ((ws.set i ((some m : Option ℕ),
                time + Step.duration m base))[j]).1 = some x := by
              rw [List.getElem_set_ne (fun h => hjieq h.symm) _]
              exact hjx
            have := B2 j hjlen x rest hjx2 hchain hrest2
            rw [List.getElem_set_ne (fun h => hjieq h.symm) _] at this
            exact this
      | none =>
        by_cases hcard : R.nodes.card = 0
        · -- idle, break
          obtain ⟨t2, hstep, htime, hclocks, _⟩ :=
            schedInv_idle_break hInv hsel hminA hcard
          have heq := (schedRun_done hstep).symm.trans hrun
          injection heq with h1 h2
          subst h1
          subst h2
          have hemp : R.nodes = ∅ := Finset.card_eq_zero.mp hcard
          refine ⟨hclocks, ?_, ?_⟩
          · intro mc c hmc hchain hunst
            cases c with
            | nil =>
              rw [chainW_nil]
              have := hmc i hi
              rw [hti] at this
              omega
            | cons h rest =>
              have hhn : h ∈ R.nodes := hchain.1 h (List.mem_cons_self _ _)
              rw [hemp] at hhn
              exact absurd hhn (Finset.not_mem_empty h)
          · intro j hj x rest hjx hchain hrest
            have hxn : x ∈ R.nodes :=
              externalsIncoming_subset R (hInv.jready j hj x hjx)
            rw [hemp] at hxn
            exact absurd hxn (Finset.not_mem_empty x)
        · -- idle, tick
          obtain ⟨hstep, hInv2⟩ := schedInv_idle_tick hInv hsel hminA hcard
          obtain ⟨C2, A2, B2⟩ := ih _ t st hInv2 ((schedRun_next hstep).symm.trans hrun)
          dsimp only at C2 A2 B2
          have hilen : i < (ws.set i ((none : Option ℕ), time + 1)).length := by
            simpa using hi
          have hCi := C2 i hilen
          rw [List.getElem_set_self _] at hCi
          have htimemc : ∀ k (hk : k < (ws.set i ((none : Option ℕ),
              time + 1)).length), time ≤ ((ws.set i ((none : Option ℕ),
              time + 1))[k]).2 := by
            intro k hk
            have hk2 : k < ws.length := by simpa using hk
            by_cases hki : k = i
            · subst hki
              rw [List.getElem_set_self _]
              show time ≤ time + 1
              omega
            · rw [List.getElem_set_ne (fun h => hki h.symm) _]
              exact sel_time_le hsel k hk2
          refine ⟨?_, ?_, ?_⟩
          · intro k hk
            by_cases hki : k = i
            · subst hki
              rw [hti]
              show time ≤ t
              omega
            · have := C2 k (by simpa using hk)
              rw [List.getElem_set_ne (fun h => hki h.symm) _] at this
              exact this
          · intro mc c hmc hchain hunst
            have hmc2 : ∀ k (hk : k < (ws.set i ((none : Option ℕ),
                time + 1)).length), mc ≤ ((ws.set i ((none : Option ℕ),
                time + 1))[k]).2 := by
              intro k hk
              have hmctime : mc ≤ time := by
                have := hmc i hi
                rw [hti] at this
                exact this
              have := htimemc k hk
              omega
            exact A2 mc c hmc2 hchain hunst
          · intro j hj x rest hjx hchain hrest
            by_cases hjieq : j = i
            · subst hjieq
              rw [hji] at hjx
              exact Option.noConfusion hjx
            · have hjlen : j < (ws.set i ((none : Option ℕ), time + 1)).length := by
                simpa using hj
              have hjx2 : ((ws.set i ((none : Option ℕ),
                  time + 1))[j]).1 = some x := by
                rw [List.getElem_set_ne (fun h => hjieq h.symm) _]
                exact hjx
              have := B2 j hjlen x rest hjx2 hchain hrest
              rw [List.getElem_set_ne (fun h => hjieq h.symm) _] at this
              exact this

/-- C4: with worker count 1 and base duration 0, the scheduler on a
well-formed acyclic graph halts with exactly the sum over all steps of
`duration(step, 0)` — the total of the serial execution. -/
theorem single_worker_no_parallelism (G : Graph) (hwf : G.WF) (hac : Acyclic G) :
    ∃ st, part2_internal G 1 0 (G.nodes.card + 1) =
      .done (∑ n ∈ G.nodes, Step.duration n 0) st :=
  sched_single_total G 0 hwf hac

/-- C4 witness: the canonical graph, serial total `1+2+3+4+5+6 = 21`. -/
theorem single_worker_no_parallelism_witness :
    ∃ st, part2_internal canonicalGraph 1 0 (canonicalGraph.nodes.card + 1) =
      .done (∑ n ∈ canonicalGraph.nodes, Step.duration n 0) st :=
  single_worker_no_parallelism canonicalGraph (by decide)
    (acyclic_of_complete (by decide) (by decide))

/-- C6: for every well-formed acyclic graph, worker count at least 1 and any
base duration, whenever `part2_internal` halts its result is at least the
weight of every dependency chain of the graph (hence at least the longest
duration-weighted chain) and at most the sum of all step durations. -/
theorem part2_chain_bounds (G : Graph) (N base fuel t : ℕ) (st : List ℕ)
    (hwf : G.WF) (hac : Acyclic G) (hN : 1 ≤ N)
    (hrun : part2_internal G N base fuel = SchedOut.done t st) :
    (∀ c : List ℕ, ChainIn G c → chainW base c ≤ t) ∧ t ≤ durSum base G.nodes := by
  have hInv := schedInv_init G base N hwf hac hN
  constructor
  · intro c hchain
    obtain ⟨C2, A2, B2⟩ :=
      schedRun_lower fuel ⟨G, List.replicate N (none, 0), []⟩ t st hInv hrun
    have := A2 0 c (fun k hk => Nat.zero_le _) hchain
      (fun x hx h => (List.not_mem_nil x) h)
    omega
  · exact schedRun_upper fuel ⟨G, List.replicate N (none, 0), []⟩ t st hInv hrun

/-- C6 witness: on the canonical graph with two workers and base 0 the
scheduler halts at 15, which dominates every chain weight and is at most the
serial total 21. -/
theorem part2_chain_bounds_witness :
    (∀ c : List ℕ, ChainIn canonicalGraph c → chainW 0 c ≤ 15) ∧
      15 ≤ durSum 0 canonicalGraph.nodes :=
  part2_chain_bounds canonicalGraph 2 0 16 15 [69, 68, 66, 70, 65, 67] (by decide)
    (acyclic_of_complete (by decide) (by decide)) (by decide) (by decide)

/-- The 10-node acyclic graph on which adding a fourth worker makes the
schedule longer (34 with three workers, 35 with four). -/
def cexGraph : Graph :=
  ⟨{68, 69, 70, 71, 72, 73, 74, 75, 79, 80},
   {(73, 79), (74, 73), (74, 75), (80, 68), (80, 71), (80, 72)}⟩

/-- C5 counterexample: the scheduler is not monotone in the worker count.
On `cexGraph` (well-formed and acyclic) with base 0, three workers finish at
34 but four workers finish at 35. -/
theorem part2_not_monotone :
    cexGraph.WF ∧ Acyclic cexGraph ∧
    part2_internal cexGraph 3 0 100 =
      SchedOut.done 34 [72, 71, 68, 79, 75, 73, 80, 74, 70, 69] ∧
    part2_internal cexGraph 4 0 100 =
      SchedOut.done 35 [79, 72, 71, 68, 75, 73, 80, 74, 70, 69] ∧
    34 < 35 :=
  ⟨by decide, acyclic_of_complete (by decide) (by decide), by decide, by decide,
   by decide⟩

/-- C5 (amended): while more workers can lengthen the schedule, no worker
count ever loses to the serial schedule: every halting run with at least one
worker finishes by the single-worker total, which the one-worker scheduler
attains exactly. -/
theorem part2_le_single_worker (G : Graph) (N base fuel t : ℕ) (st : List ℕ)
    (hwf : G.WF) (hac : Acyclic G) (hN : 1 ≤ N)
    (hrun : part2_internal G N base fuel = SchedOut.done t st) :
    ∃ st1, part2_internal G 1 base (G.nodes.card + 1) =
      SchedOut.done (durSum base G.nodes) st1 ∧ t ≤ durSum base G.nodes := by
  obtain ⟨st1, h1⟩ := sched_single_total G base hwf hac
  refine ⟨st1, h1, ?_⟩
  exact schedRun_upper fuel ⟨G, List.replicate N (none, 0), []⟩ t st
    (schedInv_init G base N hwf hac hN) hrun

/-- C5 (amended) witness: the canonical graph with two workers halts at 15,
at most the serial total 21 attained by the single-worker run. -/
theorem part2_le_single_worker_witness :
    ∃ st1, part2_internal canonicalGraph 1 0 (canonicalGraph.nodes.card + 1) =
      SchedOut.done (durSum 0 canonicalGraph.nodes) st1 ∧
      15 ≤ durSum 0 canonicalGraph.nodes :=
  part2_le_single_worker canonicalGraph 2 0 16 15 [69, 68, 66, 70, 65, 67]
    (by decide) (acyclic_of_complete (by decide) (by decide)) (by decide)
    (by decide)
